import Mathlib


/-!
Verification of the graph construction and normalization engine of the
parsed-graph-agent repository (src/graph.py, src/graph_builder.py,
src/reverse_documentation_workflow.py) against its natural-language
specification.

The embedding is shallow: the `Graph` wrapper around a networkx `DiGraph`
becomes a structure holding an insertion-ordered node list (with the node
attributes the claims mention) and an insertion-ordered edge list with at
most one edge per ordered `(source, target)` pair, exactly the multiplicity
model of `nx.DiGraph`.  Python dict subscripting (`d['k']`), which raises
`KeyError` on a missing key, is modelled by `Option` fields together with an
`Except String` monad; `d.get('k', default)` becomes `Option.getD`.
Attribute dictionaries carry only the keys some claim mentions
(`type`, `name`, `has_inner_cfg`, `isPlaceholder`, `jobName`, `stepName`,
`code_with_comments`); the remaining attribute keys of the source
(`stepNumber`, `datasets`, the code-text variants of steps, the opaque
division copies) are payload never read by the engine and are elided.
Logging and the visualization side effects of `build_graphs` are elided as
well: they do not touch the graphs.
-/



/-- Attributes attached to a node, mirroring the networkx attribute dict
restricted to the keys the engine reads or the claims mention.  A key absent
from the Python dict is `none`. -/
structure NodeAttrs where
  type : Option String := none
  name : Option String := none
  has_inner_cfg : Option Bool := none
  isPlaceholder : Option Bool := none
  jobName : Option String := none
  stepName : Option String := none
  code_with_comments : Option String := none

deriving Repr, DecidableEq

/-- The empty attribute dict. -/
def emptyAttrs : NodeAttrs :=
  { type := none, name := none, has_inner_cfg := none, isPlaceholder := none,
    jobName := none, stepName := none, code_with_comments := none }

/-- The `Graph` wrapper of src/graph.py around `nx.DiGraph`: insertion-ordered
nodes with attributes, insertion-ordered edges `(source, target, type)` with at
most one edge per ordered pair (a `DiGraph` has no parallel edges). -/
structure Graph where
  nodes : List (String × NodeAttrs)
  edges : List (String × String × String)

deriving Repr, DecidableEq

def Graph.empty : Graph := ⟨[], []⟩

/-- Node ids in insertion order (`Graph.nodes()` without data). -/
def Graph.nodeIds (g : Graph) : List String := g.nodes.map (·.1)

/-- Attribute lookup for a node id (`G.nodes[n]`). -/
def Graph.lookupNode (g : Graph) (n : String) : Option NodeAttrs :=
  (g.nodes.find? (fun p => decide (p.1 = n))).map (·.2)

/-- Model of `Graph.add_node(node_id, **attr)`: if the node exists its
attribute dict is updated in place with the supplied keys (networkx
`add_node` semantics), otherwise the node is appended with the supplied
attributes applied to the empty dict.  The update function `f` sets exactly
the keyword attributes of one call site. -/
def Graph.add_node (g : Graph) (n : String) (f : NodeAttrs → NodeAttrs) : Graph :=
  if g.nodes.any (fun p => decide (p.1 = n)) then
    { g with nodes := g.nodes.map (fun p => if p.1 = n then (n, f p.2) else p) }
  else
    { g with nodes := g.nodes ++ [(n, f emptyAttrs)] }

/-- Ensure an edge endpoint exists as a node (networkx `add_edge` silently
creates missing endpoints with an empty attribute dict). -/
def ensureNode (ns : List (String × NodeAttrs)) (n : String) : List (String × NodeAttrs) :=
  if ns.any (fun p => decide (p.1 = n)) then ns else ns ++ [(n, emptyAttrs)]

/-- Model of `Graph.add_edge(source, target, **attr)`: endpoints are created
if missing; if the ordered pair already has an edge its attributes are
updated in place (no parallel edges), otherwise the edge is appended. -/
def Graph.add_edge (g : Graph) (u v t : String) : Graph :=
  { nodes := ensureNode (ensureNode g.nodes u) v,
    edges :=
      if g.edges.any (fun e => decide (e.1 = u) && decide (e.2.1 = v)) then
        g.edges.map (fun e => if e.1 = u ∧ e.2.1 = v then (u, v, t) else e)
      else
        g.edges ++ [(u, v, t)] }

/-- Model of `Graph.remove_edge(source, target)`: removes the (unique) edge
for the ordered pair.  `List.eraseP` removes the first match, which agrees
with networkx on every graph with at most one edge per pair. -/
def Graph.remove_edge (g : Graph) (u v : String) : Graph :=
  { g with edges := g.edges.eraseP (fun e => decide (e.1 = u) && decide (e.2.1 = v)) }

/-- Model of `Graph.remove_node(node)`: removes the node and every incident
edge. -/
def Graph.remove_node (g : Graph) (n : String) : Graph :=
  { nodes := g.nodes.filter (fun p => decide (p.1 ≠ n)),
    edges := g.edges.filter (fun e => decide (e.1 ≠ n) && decide (e.2.1 ≠ n)) }

/-- Model of `Graph.in_degree(node)`: number of incoming edges. -/
def Graph.in_degree (g : Graph) (n : String) : Nat :=
  (g.edges.filter (fun e => decide (e.2.1 = n))).length

/-- Boolean edge test for an ordered pair (`Graph.has_edge`). -/
def Graph.pairMem (g : Graph) (u v : String) : Bool :=
  g.edges.any (fun e => decide (e.1 = u) && decide (e.2.1 = v))

/-- The attribute (`type`) stored on the edge of an ordered pair, if any. -/
def Graph.edgeType (g : Graph) (u v : String) : Option String :=
  (g.edges.find? (fun e => decide (e.1 = u) && decide (e.2.1 = v))).map (·.2.2)

/-- One step of the edge relation of a graph, as a Bool. -/
def Graph.stepB (g : Graph) (a b : String) : Bool := g.pairMem a b

/-- The edge relation as a Prop: `a ⟶ b` in one step. -/
def Graph.Step (g : Graph) (a b : String) : Prop := g.stepB a b = true

/-- A directed cycle exists: some node reaches itself in at least one step. -/
def Graph.HasCycle (g : Graph) : Prop :=
  ∃ n, Relation.TransGen g.Step n n

/-- Graph invariant maintained by every constructor of this API: at most one
edge per ordered pair (networkx `DiGraph` stores edges in a nested dict). -/
def Graph.EdgeKeysNodup (g : Graph) : Prop :=
  (g.edges.map (fun e => (e.1, e.2.1))).Nodup

/-! ## Input records

`BlockRecord`s (COBOL parser output, one JSON object per paragraph) and
`StepRecord`s (JCL parser output).  Every field that the source reads through
`d['k']` or `d.get('k', ...)` is an `Option`, reflecting that the key may be
absent from the parsed JSON. -/



/-- One entry of `perform_targets`: a JSON object read via
`tgt['target_name']`. -/
structure PerformTarget where
  target_name : Option String

deriving Repr, DecidableEq

/-- The `paragraph` object inside `procedure_division`. -/
structure ParagraphFields where
  paragraph_name : Option String
  code_with_comments : Option String
  perform_targets : Option (List PerformTarget)
  goto_targets : Option (List String)

deriving Repr, DecidableEq

/-- The `identification_division` object. -/
structure IdentificationDivision where
  program_id : Option String

deriving Repr, DecidableEq

/-- The `procedure_division` object.  The source key `using` is a Lean
keyword, hence the field name `usingParams`. -/
structure ProcedureDivision where
  paragraph : Option ParagraphFields
  usingParams : Option (List String)

deriving Repr, DecidableEq

/-- One COBOL paragraph JSON record.  The opaque `environment_division` and
`data_division` copies are never read by the engine and are elided. -/
structure CobolRecord where
  identification_division : Option IdentificationDivision
  procedure_division : Option ProcedureDivision
  code_without_comments : Option String
  called_programs : Option (List String)

deriving Repr, DecidableEq

/-- The `step` object of a JCL record.  `stepNumber`, `datasets` and the two
code-text fields are write-only payload and are elided. -/
structure JclStep where
  stepName : Option String
  programId : Option String

deriving Repr, DecidableEq

/-- One JCL job JSON record. -/
structure JclJob where
  jobName : Option String
  step : Option JclStep

deriving Repr, DecidableEq

/-- Python `d['k']`: return the value or raise (`KeyError` /
`AttributeError`), modelled as `Except.error`. -/
def getK {α : Type} (o : Option α) (msg : String) : Except String α :=
  match o with
  | some a => Except.ok a
  | none => Except.error msg

/-! ## Association-list helpers (Python dicts preserve insertion order;
assigning to an existing key overwrites in place). -/



def assocSet {β : Type} (l : List (String × β)) (k : String) (v : β) : List (String × β) :=
  if l.any (fun p => decide (p.1 = k)) then
    l.map (fun p => if p.1 = k then (k, v) else p)
  else l ++ [(k, v)]

def assocUpdate {β : Type} (l : List (String × β)) (k : String) (f : β → β) : List (String × β) :=
  l.map (fun p => if p.1 = k then (k, f p.2) else p)

def assocFind {β : Type} (l : List (String × β)) (k : String) : Option β :=
  (l.find? (fun p => decide (p.1 = k))).map (·.2)

/-- Deduplication keeping the first occurrence.  The source collects
`called_programs` into a Python `set`, whose iteration order is
implementation-defined; we fix first-appearance order.  No claim depends on
this order, only on membership. -/
def dedupKeepFirst (l : List String) : List String :=
  l.foldl (fun acc x => if acc.any (fun y => decide (y = x)) then acc else acc ++ [x]) []

/-! ## Program aggregation (build_graphs, lines 207-222)

Groups paragraph records by `program_id` into `cobol_programs`.  A record
missing `identification_division` or `program_id` raises `KeyError`
(line 210); the first record of a new program evaluates
`paragraph_json.get('procedure_division', []).get('using', [])`, which
raises `AttributeError` when `procedure_division` is absent (the default is
a list, which has no `.get`); every record then evaluates
`paragraph_json['procedure_division']['paragraph']['paragraph_name']`
(line 221), raising `KeyError` on any missing level. -/



/-- The per-program aggregate: `procedure_division_using` plus the
insertion-ordered paragraph dict (last write wins for a repeated name). -/
structure ProgDetails where
  procedure_division_using : List String
  paragraphs : List (String × CobolRecord)

deriving Repr, DecidableEq

def aggregateRecord (acc : List (String × ProgDetails)) (rec : CobolRecord) :
    Except String (List (String × ProgDetails)) := do
  let idv ← getK rec.identification_division "KeyError: identification_division"
  let pid ← getK idv.program_id "KeyError: program_id"
  let acc ←
    if acc.any (fun p => decide (p.1 = pid)) then pure acc
    else do
      let us ←
        match rec.procedure_division with
        | some pd => pure (pd.usingParams.getD [])
        | none => Except.error "AttributeError: 'list' object has no attribute 'get'"
      pure (acc ++ [(pid, { procedure_division_using := us, paragraphs := [] })])
  let pd ← getK rec.procedure_division "KeyError: procedure_division"
  let para ← getK pd.paragraph "KeyError: paragraph"
  let pname ← getK para.paragraph_name "KeyError: paragraph_name"
  pure (assocUpdate acc pid (fun d => { d with paragraphs := assocSet d.paragraphs pname rec }))

def aggregatePrograms (cobol : List CobolRecord) : Except String (List (String × ProgDetails)) :=
  cobol.foldlM aggregateRecord []

/-! ## Inner graph builder (build_graphs, lines 238-264) -/



/-- Body of the node loop (lines 243-249): one BlockNode per paragraph. -/
def nodesStep (pid : String) (g : Graph) (pv : String × CobolRecord) :
    Except String Graph := do
  let pd ← getK pv.2.procedure_division "KeyError: procedure_division"
  let para ← getK pd.paragraph "KeyError: paragraph"
  pure (g.add_node (pid ++ ":" ++ pv.1)
    (fun a => { a with name := some pv.1,
                       code_with_comments := para.code_with_comments,
                       type := some "paragraph" }))

/-- Node phase: one BlockNode per paragraph (lines 243-249). -/
def innerAddNodes (pid : String) (paragraphs : List (String × CobolRecord)) :
    Except String Graph :=
  paragraphs.foldlM (nodesStep pid) Graph.empty

/-- Edge phase (lines 251-264): for every paragraph, a `PERFORM` edge per
non-INLINE perform target and a `GOTO` edge per goto target.  The source
performs no membership test on the target id: the edge is added
unconditionally and a missing target node is created implicitly by
`add_edge`. -/
def performStep (pid p : String) (g : Graph) (t : PerformTarget) : Except String Graph := do
  let tn ← getK t.target_name "KeyError: target_name"
  if tn = "INLINE" then pure g
  else pure (g.add_edge (pid ++ ":" ++ p) (pid ++ ":" ++ tn) "PERFORM")

def gotoStep (pid p : String) (g : Graph) (t : String) : Graph :=
  g.add_edge (pid ++ ":" ++ p) (pid ++ ":" ++ t) "GOTO"

/-- Body of the edge loop (lines 251-264) for one paragraph. -/
def edgesStep (pid : String) (g : Graph) (pv : String × CobolRecord) :
    Except String Graph := do
  let pd ← getK pv.2.procedure_division "KeyError: procedure_division"
  let para ← getK pd.paragraph "KeyError: paragraph"
  let g ← (para.perform_targets.getD []).foldlM (performStep pid pv.1) g
  pure ((para.goto_targets.getD []).foldl (gotoStep pid pv.1) g)

def innerAddEdges (pid : String) (paragraphs : List (String × CobolRecord)) (g0 : Graph) :
    Except String Graph :=
  paragraphs.foldlM (edgesStep pid) g0

/-- The inner graph as built before the elimination passes. -/
def buildInner (pid : String) (paragraphs : List (String × CobolRecord)) :
    Except String Graph := do
  let g ← innerAddNodes pid paragraphs
  innerAddEdges pid paragraphs g

/-! ## Dead-block eliminator (build_graphs, lines 266-279)

A single pass over a snapshot of the node list: every non-root node whose
in-degree is zero at its turn is removed.  If the root is absent the pass is
skipped. -/



def deadNodeStep (entry : String) (g : Graph) (n : String) : Graph :=
  if n ≠ entry ∧ g.in_degree n = 0 then g.remove_node n else g

def deadRemoval (entry : String) (g : Graph) : Graph :=
  if entry ∈ g.nodeIds then g.nodeIds.foldl (deadNodeStep entry) g else g

/-! ## Cycle eliminator (remove_edges, graph_builder.py lines 153-193)

`nx.find_cycle` returns a cycle (as a list of edges) when one exists and
raises `NetworkXNoCycle` otherwise; the source takes the last edge of the
returned cycle and removes it, looping until no cycle is found.  We model
the library call by `findCycleEdge`, which returns an existing edge lying on
some cycle exactly when the graph has a cycle (the defining guarantee of
`nx.find_cycle`); which such edge is returned is irrelevant to every claim,
so the deterministic first-in-insertion-order choice stands in for the
library's DFS choice. -/



/-- Successors of a node. -/
def Graph.succList (g : Graph) (a : String) : List String :=
  g.edges.filterMap (fun e => if e.1 = a then some e.2.1 else none)

/-- Insert the successors of `x` into the accumulator (set-like insert). -/
def addSuccs (g : Graph) (acc : List String) (x : String) : List String :=
  (g.succList x).foldl (fun a y => a.insert y) acc

/-- One round of successor-closure expansion. -/
def expand (g : Graph) (s : List String) : List String :=
  s.foldl (addSuccs g) s

/-- Iterated expansion. -/
def reachIter (g : Graph) : Nat → List String → List String
  | 0, s => s
  | n + 1, s => reachIter g n (expand g s)

/-- All nodes reachable from `a` (including `a`): `g.edges.length + 1` rounds
saturate, since each non-saturated round strictly grows a duplicate-free list
drawn from `a` and the edge targets. -/
def reachList (g : Graph) (a : String) : List String :=
  reachIter g (g.edges.length + 1) [a]

/-- Executable reachability (`nx.has_path`). -/
def Graph.reachesB (g : Graph) (a b : String) : Bool := b ∈ reachList g a

/-- The edge `nx.find_cycle` stands for: the first edge `(u, v)` whose target
`v` reaches its source `u`; such an edge exists iff the graph has a cycle. -/
def findCycleEdge (g : Graph) : Option (String × String × String) :=
  g.edges.find? (fun e => g.reachesB e.2.1 e.1)

/-- The loop of `remove_edges`, written with explicit fuel so that it
computes by structural recursion: while a cycle exists, remove the
cycle-closing edge found and record it. -/
def removeEdgesFuel : Nat → Graph → Graph × List (String × String)
  | 0, g => (g, [])
  | fuel + 1, g =>
    match findCycleEdge g with
    | none => (g, [])
    | some e =>
      let r := removeEdgesFuel fuel (g.remove_edge e.1 e.2.1)
      (r.1, (e.1, e.2.1) :: r.2)

/-- The loop of `remove_edges`.  A fuel of `g.edges.length` never runs out:
every round removes one existing edge, so after `g.edges.length` rounds no
edge — hence no cycle — remains. -/
def removeEdgesLoop (g : Graph) : Graph × List (String × String) :=
  removeEdgesFuel g.edges.length g

/-- Model of `remove_edges(graph, edges)`.  The source never reads its
`edges` parameter; it is kept to mirror the signature.  Returns the mutated
graph together with the list of removed edges (the Python function mutates
`graph` in place and returns the removed list). -/
def remove_edges (g : Graph) (es : List (String × String × String)) :
    Graph × List (String × String) :=
  let _ := es
  removeEdgesLoop g

/-! ## Outer graph builder, COBOL side (build_graphs, lines 224-292) -/



def collectCalled (d : ProgDetails) : List String :=
  d.paragraphs.foldl (fun acc pv => acc ++ pv.2.called_programs.getD []) []

/-- Body of the inter-program CALL loop (lines 290-292). -/
def calleeStep (pid : String) (o : Graph) (c : String) : Graph :=
  (o.add_node c (fun a => { a with type := some "program" })).add_edge pid c "CALL"

/-- Processing of one aggregated program (lines 224-292): outer node,
called-program set, inner build, dead-block removal, cycle removal, CALL
edges.  Returns the updated outer graph and the finished inner graph. -/
def processProgram (outer : Graph) (pid : String) (d : ProgDetails) :
    Except String (Graph × Graph) := do
  let outer := outer.add_node pid
    (fun a => { a with type := some "program",
                       has_inner_cfg := some (!d.paragraphs.isEmpty) })
  let called := dedupKeepFirst (collectCalled d)
  let inner ← buildInner pid d.paragraphs
  let inner := deadRemoval (pid ++ ":ENTRY") inner
  let inner := (remove_edges inner inner.edges).1
  let outer := called.foldl (calleeStep pid) outer
  pure (outer, inner)

/-- One iteration of the program loop, threading the outer graph and the
`inner_cfg` dict. -/
def cobolStep (acc : Graph × List (String × Graph)) (pd : String × ProgDetails) :
    Except String (Graph × List (String × Graph)) := do
  let r ← processProgram acc.1 pd.1 pd.2
  pure (r.1, assocSet acc.2 pd.1 r.2)

def processCobolPrograms (progs : List (String × ProgDetails)) :
    Except String (Graph × List (String × Graph)) :=
  progs.foldlM cobolStep (Graph.empty, [])

/-! ## Outer graph builder, JCL side (build_graphs, lines 294-323) -/



/-- Processing of one JCL record: a record missing `jobName` or `step` is
skipped with a warning (line 296); `step['stepName']` (line 301) and
`step['programId']` (line 319) raise `KeyError` when absent; the job node is
created only if absent; the step node is added unconditionally; the program
node is created with `isPlaceholder = True` only when the id is not yet a
node; the `EXECUTES` edge is always added. -/
def processJclJob (outer : Graph) (job : JclJob) : Except String Graph :=
  match job.jobName, job.step with
  | some job_name, some step => do
    let stepName ← getK step.stepName "KeyError: stepName"
    let step_id := job_name ++ ":" ++ stepName
    let outer :=
      if job_name ∈ outer.nodeIds then outer
      else outer.add_node job_name
        (fun a => { a with type := some "jcl_job", jobName := some job_name })
    let outer := outer.add_node step_id
      (fun a => { a with type := some "jcl_step",
                         jobName := some job_name,
                         stepName := step.stepName })
    let prog_id ← getK step.programId "KeyError: programId"
    let outer :=
      if prog_id ∈ outer.nodeIds then outer
      else outer.add_node prog_id
        (fun a => { a with type := some "program", isPlaceholder := some true })
    pure (outer.add_edge step_id prog_id "EXECUTES")
  | _, _ => pure outer

/-- Model of `build_graphs(jcl_json_list, cobol_json_list)` (lines 195-343):
aggregation, per-program processing, JCL processing.  Returns the outer
graph and the map from program id to inner graph, or the first raised
exception. -/
def build_graphs (jcl : List JclJob) (cobol : List CobolRecord) :
    Except String (Graph × List (String × Graph)) := do
  let progs ← aggregatePrograms cobol
  let r ← processCobolPrograms progs
  let outer ← jcl.foldlM processJclJob r.1
  pure (outer, r.2)

/-! ## Traversal provider (reverse_documentation_workflow.py, lines 44-70) -/



/-- Kahn topological order as produced by `nx.topological_sort` (only the
acyclic branch of `get_reverse_processing_order` uses it; no claim concerns
its internal order, which we realize as repeated extraction of the first
remaining zero-in-degree node). -/
def kahnAux (g : Graph) : Nat → Graph → List String
  | 0, _ => []
  | fuel + 1, cur =>
    match cur.nodeIds.find? (fun n => decide (cur.in_degree n = 0)) with
    | none => []
    | some n => n :: kahnAux g fuel (cur.remove_node n)

def kahnTopo (g : Graph) : List String := kahnAux g g.nodes.length g

/-- Program node ids in insertion order (`data.get('type') == 'program'`). -/
def programIds (g : Graph) : List String :=
  (g.nodes.filter (fun p => decide (p.2.type = some "program"))).map (·.1)

/-- JCL step node ids in insertion order. -/
def jclStepIds (g : Graph) : List String :=
  (g.nodes.filter (fun p => decide (p.2.type = some "jcl_step"))).map (·.1)

/-- Model of `get_reverse_processing_order`: reversed topological order when
the graph is acyclic; on a cyclic graph `nx.topological_sort` raises
`NetworkXUnfeasible` and the fallback order is returned: program nodes in
reverse insertion order, then jcl_step nodes in reverse insertion order
(jcl_job nodes appear in neither list). -/
def get_reverse_processing_order (g : Graph) : List String :=
  if (findCycleEdge g).isSome then
    (programIds g).reverse ++ (jclStepIds g).reverse
  else (kahnTopo g).reverse

/-! ## Derived predicates and concrete scenario inputs -/

/-- Propositional reachability: zero or more steps. -/
def Graph.Reach (g : Graph) : String → String → Prop := Relation.ReflTransGen g.Step

/-- Edge targets: the universe every expansion stays inside (together with
the start node). -/
def targetsOf (g : Graph) : List String := g.edges.map (·.2.1)

/-- A concrete cyclic outer graph: two programs calling each other, plus a
job node that must not appear in the fallback order. -/
def cycOuter : Graph :=
  ((((Graph.empty.add_node "A" (fun a => { a with type := some "program" })).add_node "B"
      (fun a => { a with type := some "program" })).add_node "J1"
      (fun a => { a with type := some "jcl_job" })).add_edge "A" "B" "CALL").add_edge
    "B" "A" "CALL"

/-- Concrete record constructor used by the concrete scenarios below. -/
def mkRec (pid pname : String) (performs : List PerformTarget) (gotos : List String)
    (called : List String) : CobolRecord :=
  { identification_division := some ⟨some pid⟩,
    procedure_division := some
      { paragraph := some
          { paragraph_name := some pname, code_with_comments := none,
            perform_targets := some performs, goto_targets := some gotos },
        usingParams := none },
    code_without_comments := none,
    called_programs := some called }

/-- Paragraphs ENTRY, B, A of program P, where A performs B: B's only
predecessor A is examined after B, so B survives the pass with final
in-degree 0. -/
def c3paras : List (String × CobolRecord) :=
  [("ENTRY", mkRec "P" "ENTRY" [] [] []),
   ("B", mkRec "P" "B" [] [] []),
   ("A", mkRec "P" "A" [⟨some "B"⟩] [] [])]

def c3graph : Graph := ((buildInner "P" c3paras).toOption).getD Graph.empty

def c3dead : Graph := deadRemoval "P:ENTRY" c3graph

/-- A two-node graph with a root and an orphan, for the amended-C3 witness. -/
def c3witnessGraph : Graph :=
  (Graph.empty.add_node "P2:ENTRY" id).add_node "P2:X" id

/-- A one-node graph without the root id, for the C8 witness. -/
def c8graph : Graph := Graph.empty.add_node "Z" id

/-- Number of edges stored for an ordered pair. -/
def pairCount (g : Graph) (u v : String) : Nat :=
  (g.edges.filter (fun e => decide (e.1 = u) && decide (e.2.1 = v))).length

/-- Program P1 with a single paragraph whose perform target `MISSING` and
goto target `GBLK` both name non-existent paragraphs. -/
def c1rec : CobolRecord := mkRec "P1" "ENTRY" [⟨some "MISSING"⟩] ["GBLK"] []

def c1paras : List (String × CobolRecord) := [("ENTRY", c1rec)]

def c1graph : Graph := ((buildInner "P1" c1paras).toOption).getD Graph.empty

def c1para : ParagraphFields :=
  { paragraph_name := some "ENTRY", code_with_comments := none,
    perform_targets := some [⟨some "MISSING"⟩], goto_targets := some ["GBLK"] }

/-- During the COBOL phase no operation ever writes `isPlaceholder`: every
stored attribute dict has `isPlaceholder = none`. -/
def InvNoPh (g : Graph) : Prop :=
  ∀ n a, g.lookupNode n = some a → a.isPlaceholder = none

/-- The C5 target state: the callee node exists with `type = "program"` and
no `isPlaceholder` attribute, and the CALL edge is present. -/
def calleeState (pid callee : String) (g : Graph) : Prop :=
  (∃ a, g.lookupNode callee = some a ∧ a.type = some "program" ∧
    a.isPlaceholder = none) ∧
  g.edgeType pid callee = some "CALL"

/-- Program A calls B; B is never aggregated from any block record. -/
def c5recs : List CobolRecord := [mkRec "A" "ENTRY" [] [] ["B"]]

def c5outer : Graph :=
  ((build_graphs [] c5recs).toOption.map Prod.fst).getD Graph.empty

def c5progs : List (String × ProgDetails) := (aggregatePrograms c5recs).toOption.getD []

def c5pair : Graph × List (String × Graph) :=
  (processCobolPrograms c5progs).toOption.getD (Graph.empty, [])

def c5details : ProgDetails := (assocFind c5progs "A").getD ⟨[], []⟩

/-- The C6 target state: the executed program node carries
`isPlaceholder = true` and the EXECUTES edge from the step node exists. -/
def execState (sid pidX : String) (g : Graph) : Prop :=
  (∃ a, g.lookupNode pidX = some a ∧ a.isPlaceholder = some true ∧
    a.type = some "program") ∧
  g.edgeType sid pidX = some "EXECUTES"

/-- Program A calls PGMX, and job J1 step S1 executes PGMX; PGMX is never
aggregated from a block record, yet it enters the outer graph as a call
target, so the JCL phase does not mark it as a placeholder. -/
def c6recs : List CobolRecord := [mkRec "A" "ENTRY" [] [] ["PGMX"]]

def c6step : JclStep := { stepName := some "S1", programId := some "PGMX" }

def c6jobs : List JclJob := [{ jobName := some "J1", step := some c6step }]

def c6outer : Graph :=
  ((build_graphs c6jobs c6recs).toOption.map Prod.fst).getD Graph.empty

/-- The spec's own scenario: the lone step record with no block records. -/
def c6wjob : JclJob := { jobName := some "J1", step := some c6step }

def c6wgraph : Graph :=
  (([c6wjob].foldlM processJclJob Graph.empty).toOption).getD Graph.empty

/-- The fields of a COBOL record that `build_graphs` dereferences with
`['k']` subscripts (raising `KeyError`/`AttributeError` when absent). -/
def cobolReq (r : CobolRecord) : Bool :=
  match r.identification_division with
  | none => false
  | some idv =>
    idv.program_id.isSome &&
    match r.procedure_division with
    | none => false
    | some pd =>
      match pd.paragraph with
      | none => false
      | some para =>
        para.paragraph_name.isSome &&
        (para.perform_targets.getD []).all (fun t => t.target_name.isSome)

/-- A JCL record with `jobName` and `step` additionally needs `stepName` and
`programId`; a record missing `jobName` or `step` is merely skipped. -/
def jclReq (j : JclJob) : Bool :=
  match j.jobName, j.step with
  | some _, some st => st.stepName.isSome && st.programId.isSome
  | _, _ => true

/-- Every record stored in the aggregation satisfies the field requirements
the later phases dereference. -/
def storedReq (r : CobolRecord) : Prop :=
  ∃ pd para, r.procedure_division = some pd ∧ pd.paragraph = some para ∧
    ∀ t ∈ para.perform_targets.getD [], t.target_name.isSome

def InvProgs (progs : List (String × ProgDetails)) : Prop :=
  ∀ pd ∈ progs, ∀ pr ∈ pd.2.paragraphs, storedReq pr.2

/-- A completely empty COBOL record: `paragraph_json['identification_division']`
raises `KeyError` at graph_builder.py line 210. -/
def c2badrec : CobolRecord :=
  { identification_division := none, procedure_division := none,
    code_without_comments := none, called_programs := none }

def c2jobs : List JclJob :=
  [{ jobName := none, step := some c6step },
   { jobName := some "J2", step := some c6step }]

def c2recs : List CobolRecord := [mkRec "W" "ENTRY" [⟨some "X"⟩] ["G1"] ["Q"]]

/-! ## Reachability: soundness and completeness of `reachList`

These lemmas justify using `findCycleEdge` as the model of `nx.find_cycle`:
it returns an edge exactly when the graph has a directed cycle. -/



theorem mem_succList_iff {g : Graph} {a b : String} :
    b ∈ g.succList a ↔ g.Step a b := by
  simp only [Graph.succList, List.mem_filterMap, Graph.Step, Graph.stepB, Graph.pairMem,
    List.any_eq_true, Bool.and_eq_true, decide_eq_true_eq]
  constructor
  · rintro ⟨e, he, hif⟩
    by_cases h : e.1 = a
    · simp only [h, if_true, Option.some.injEq] at hif
      exact ⟨e, he, h, hif⟩
    · simp [h] at hif
  · rintro ⟨e, he, h1, h2⟩
    exact ⟨e, he, by simp [h1, h2]⟩

theorem subset_foldl_insert (l acc : List String) :
    acc ⊆ l.foldl (fun a y => a.insert y) acc := by
  induction l generalizing acc with
  | nil => exact fun x hx => hx
  | cons h t ih =>
    simp only [List.foldl_cons]
    exact fun x hx => ih (acc.insert h) (List.mem_insert_of_mem hx)

theorem mem_foldl_insert_of_mem (l acc : List String) (y : String) (hy : y ∈ l) :
    y ∈ l.foldl (fun a x => a.insert x) acc := by
  induction l generalizing acc with
  | nil => cases hy
  | cons h t ih =>
    simp only [List.foldl_cons]
    rcases List.mem_cons.mp hy with rfl | hy'
    · exact subset_foldl_insert t _ (List.mem_insert_self _ _)
    · exact ih _ hy'

theorem mem_foldl_insert_cases (l acc : List String) (z : String)
    (hz : z ∈ l.foldl (fun a x => a.insert x) acc) : z ∈ acc ∨ z ∈ l := by
  induction l generalizing acc with
  | nil => exact Or.inl hz
  | cons h t ih =>
    simp only [List.foldl_cons] at hz
    rcases ih _ hz with hacc | ht
    · rcases List.mem_insert_iff.mp hacc with rfl | h2
      · exact Or.inr (List.mem_cons_self _ _)
      · exact Or.inl h2
    · exact Or.inr (List.mem_cons_of_mem _ ht)

theorem nodup_foldl_insert (l : List String) :
    ∀ acc : List String, acc.Nodup → (l.foldl (fun a x => a.insert x) acc).Nodup := by
  induction l with
  | nil => exact fun _ h => h
  | cons h t ih =>
    intro acc hacc
    simp only [List.foldl_cons]
    exact ih _ hacc.insert

theorem foldl_insert_suffix (l : List String) :
    ∀ acc : List String, ∃ t, l.foldl (fun a x => a.insert x) acc = t ++ acc := by
  induction l with
  | nil => exact fun acc => ⟨[], rfl⟩
  | cons h t ih =>
    intro acc
    simp only [List.foldl_cons]
    obtain ⟨t1, ht1⟩ := ih (acc.insert h)
    by_cases hmem : h ∈ acc
    · refine ⟨t1, ?_⟩
      rw [List.insert_of_mem hmem] at ht1 ⊢
      exact ht1
    · refine ⟨t1 ++ [h], ?_⟩
      rw [List.insert_of_not_mem hmem] at ht1 ⊢
      rw [ht1]
      simp

theorem subset_addSuccs (g : Graph) (acc : List String) (x : String) :
    acc ⊆ addSuccs g acc x := subset_foldl_insert _ _

theorem mem_addSuccs_of_succ (g : Graph) (acc : List String) (x y : String)
    (hy : y ∈ g.succList x) : y ∈ addSuccs g acc x := mem_foldl_insert_of_mem _ _ _ hy

theorem mem_addSuccs_cases (g : Graph) (acc : List String) (x z : String)
    (hz : z ∈ addSuccs g acc x) : z ∈ acc ∨ z ∈ g.succList x :=
  mem_foldl_insert_cases _ _ _ hz

theorem subset_foldl_addSuccs (g : Graph) (l : List String) :
    ∀ acc : List String, acc ⊆ l.foldl (addSuccs g) acc := by
  induction l with
  | nil => exact fun _ x hx => hx
  | cons h t ih =>
    intro acc
    simp only [List.foldl_cons]
    exact fun x hx => ih (addSuccs g acc h) (subset_addSuccs g acc h hx)

theorem subset_expand (g : Graph) (s : List String) : s ⊆ expand g s :=
  subset_foldl_addSuccs g s s

theorem mem_foldl_addSuccs_cases (g : Graph) (l : List String) :
    ∀ acc z, z ∈ l.foldl (addSuccs g) acc → z ∈ acc ∨ ∃ x ∈ l, z ∈ g.succList x := by
  induction l with
  | nil => exact fun _ _ hz => Or.inl hz
  | cons h t ih =>
    intro acc z hz
    simp only [List.foldl_cons] at hz
    rcases ih _ _ hz with hacc | ⟨x, hx, hsucc⟩
    · rcases mem_addSuccs_cases g acc h z hacc with h1 | h1
      · exact Or.inl h1
      · exact Or.inr ⟨h, List.mem_cons_self _ _, h1⟩
    · exact Or.inr ⟨x, List.mem_cons_of_mem _ hx, hsucc⟩

theorem mem_expand_cases (g : Graph) (s : List String) (z : String) (hz : z ∈ expand g s) :
    z ∈ s ∨ ∃ x ∈ s, z ∈ g.succList x := mem_foldl_addSuccs_cases g s s z hz

theorem mem_foldl_addSuccs_of_succ (g : Graph) (l : List String) :
    ∀ acc x y, x ∈ l → y ∈ g.succList x → y ∈ l.foldl (addSuccs g) acc := by
  induction l with
  | nil => intro _ _ _ hx; cases hx
  | cons h t ih =>
    intro acc x y hx hy
    simp only [List.foldl_cons]
    rcases List.mem_cons.mp hx with rfl | hx'
    · exact subset_foldl_addSuccs g t _ (mem_addSuccs_of_succ g acc x y hy)
    · exact ih _ x y hx' hy

theorem succ_mem_expand (g : Graph) (s : List String) (x y : String)
    (hx : x ∈ s) (hy : y ∈ g.succList x) : y ∈ expand g s :=
  mem_foldl_addSuccs_of_succ g s s x y hx hy

theorem nodup_foldl_addSuccs (g : Graph) (l : List String) :
    ∀ acc : List String, acc.Nodup → (l.foldl (addSuccs g) acc).Nodup := by
  induction l with
  | nil => exact fun _ h => h
  | cons h t ih =>
    intro acc hacc
    simp only [List.foldl_cons]
    exact ih _ (nodup_foldl_insert _ _ hacc)

theorem nodup_expand (g : Graph) (s : List String) (h : s.Nodup) : (expand g s).Nodup :=
  nodup_foldl_addSuccs g s s h

theorem foldl_addSuccs_suffix (g : Graph) (l : List String) :
    ∀ acc : List String, ∃ t, l.foldl (addSuccs g) acc = t ++ acc := by
  induction l with
  | nil => exact fun _ => ⟨[], rfl⟩
  | cons h t ih =>
    intro acc
    simp only [List.foldl_cons]
    obtain ⟨t0, ht0⟩ := foldl_insert_suffix (g.succList h) acc
    obtain ⟨t1, ht1⟩ := ih (addSuccs g acc h)
    refine ⟨t1 ++ t0, ?_⟩
    rw [ht1]
    unfold addSuccs
    rw [ht0, List.append_assoc]

theorem expand_eq_or_lt (g : Graph) (s : List String) :
    expand g s = s ∨ s.length < (expand g s).length := by
  obtain ⟨t, ht⟩ := foldl_addSuccs_suffix g s s
  cases t with
  | nil => left; simpa using ht
  | cons h t' =>
    right
    unfold expand
    rw [ht]
    simp [List.length_append]
    omega

theorem succList_subset_targets (g : Graph) (x : String) :
    g.succList x ⊆ targetsOf g := by
  intro y hy
  simp only [Graph.succList, List.mem_filterMap] at hy
  obtain ⟨e, he, hif⟩ := hy
  by_cases h : e.1 = x
  · simp only [h, if_true, Option.some.injEq] at hif
    exact List.mem_map.mpr ⟨e, he, hif⟩
  · simp [h] at hif

theorem expand_subset_universe (g : Graph) (s U : List String)
    (hs : s ⊆ U) (hT : targetsOf g ⊆ U) : expand g s ⊆ U := by
  intro z hz
  rcases mem_expand_cases g s z hz with h | ⟨x, _, hsucc⟩
  · exact hs h
  · exact hT (succList_subset_targets g x hsucc)

theorem reachIter_fix (g : Graph) (n : Nat) (s : List String) (h : expand g s = s) :
    reachIter g n s = s := by
  induction n with
  | zero => rfl
  | succ n ih => rw [reachIter, h]; exact ih

theorem subset_reachIter (g : Graph) (n : Nat) :
    ∀ s : List String, s ⊆ reachIter g n s := by
  induction n with
  | zero => exact fun _ x hx => hx
  | succ n ih =>
    intro s x hx
    rw [reachIter]
    exact ih (expand g s) (subset_expand g s hx)

theorem nodup_reachIter (g : Graph) (n : Nat) :
    ∀ s : List String, s.Nodup → (reachIter g n s).Nodup := by
  induction n with
  | zero => exact fun _ h => h
  | succ n ih =>
    intro s hs
    rw [reachIter]
    exact ih _ (nodup_expand g s hs)

theorem reachIter_subset_universe (g : Graph) (U : List String) (hT : targetsOf g ⊆ U)
    (n : Nat) : ∀ s : List String, s ⊆ U → reachIter g n s ⊆ U := by
  induction n with
  | zero => exact fun _ h => h
  | succ n ih =>
    intro s hs
    rw [reachIter]
    exact ih _ (expand_subset_universe g s U hs hT)

theorem length_le_dedup_of_nodup_subset {l U : List String} (hl : l.Nodup) (hsub : l ⊆ U) :
    l.length ≤ U.dedup.length := by
  have h1 : l.toFinset.card = l.length := List.toFinset_card_of_nodup hl
  have h2 : l.toFinset ⊆ U.toFinset := by
    intro x hx
    rw [List.mem_toFinset] at hx ⊢
    exact hsub hx
  have h3 := Finset.card_le_card h2
  rw [h1, List.card_toFinset] at h3
  exact h3

theorem reachIter_closed (g : Graph) (U : List String) (hT : targetsOf g ⊆ U) (n : Nat) :
    ∀ s : List String, s.Nodup → s ⊆ U → U.dedup.length ≤ s.length + n →
      expand g (reachIter g n s) = reachIter g n s := by
  induction n with
  | zero =>
    intro s hnd hsub hb
    rcases expand_eq_or_lt g s with h | h
    · simpa [reachIter] using h
    · exfalso
      have hle := length_le_dedup_of_nodup_subset (nodup_expand g s hnd)
        (expand_subset_universe g s U hsub hT)
      omega
  | succ n ih =>
    intro s hnd hsub hb
    rcases expand_eq_or_lt g s with h | h
    · rw [reachIter, h, reachIter_fix g n s h]
      exact h
    · rw [reachIter]
      exact ih (expand g s) (nodup_expand g s hnd)
        (expand_subset_universe g s U hsub hT) (by omega)

theorem reachList_closed (g : Graph) (a : String) :
    expand g (reachList g a) = reachList g a := by
  have hT : targetsOf g ⊆ a :: targetsOf g := fun x hx => List.mem_cons_of_mem _ hx
  apply reachIter_closed g (a :: targetsOf g) hT (g.edges.length + 1) [a]
    (List.nodup_singleton a)
  · intro x hx
    simp only [List.mem_singleton] at hx
    exact hx ▸ List.mem_cons_self _ _
  · have h1 : (a :: targetsOf g).dedup.length ≤ (a :: targetsOf g).length :=
      (List.dedup_sublist _).length_le
    have h2 : (a :: targetsOf g).length = g.edges.length + 1 := by
      simp [targetsOf]
    simp only [List.length_singleton]
    omega

theorem mem_reachList_self (g : Graph) (a : String) : a ∈ reachList g a :=
  subset_reachIter g (g.edges.length + 1) [a] (List.mem_singleton_self a)

theorem reach_of_mem_reachIter (g : Graph) (a : String) (n : Nat) :
    ∀ s : List String, (∀ x ∈ s, g.Reach a x) → ∀ z ∈ reachIter g n s, g.Reach a z := by
  induction n with
  | zero => exact fun _ h => h
  | succ n ih =>
    intro s hs z hz
    rw [reachIter] at hz
    refine ih (expand g s) ?_ z hz
    intro x hx
    rcases mem_expand_cases g s x hx with h | ⟨y, hy, hsucc⟩
    · exact hs x h
    · exact (hs y hy).tail (mem_succList_iff.mp hsucc)

theorem reach_of_mem_reachList (g : Graph) (a b : String) (hb : b ∈ reachList g a) :
    g.Reach a b := by
  refine reach_of_mem_reachIter g a (g.edges.length + 1) [a] ?_ b hb
  intro x hx
  simp only [List.mem_singleton] at hx
  exact hx ▸ Relation.ReflTransGen.refl

theorem mem_reachList_of_reach (g : Graph) (a b : String) (h : g.Reach a b) :
    b ∈ reachList g a := by
  induction h with
  | refl => exact mem_reachList_self g a
  | tail _ hbc ih =>
    have hexp := succ_mem_expand g (reachList g a) _ _ ih (mem_succList_iff.mpr hbc)
    rwa [reachList_closed g a] at hexp

theorem reachesB_iff (g : Graph) (a b : String) :
    g.reachesB a b = true ↔ g.Reach a b := by
  unfold Graph.reachesB
  simp only [decide_eq_true_eq]
  exact ⟨reach_of_mem_reachList g a b, mem_reachList_of_reach g a b⟩

/-! ## Correctness of the cycle eliminator -/



theorem step_iff_exists_edge {g : Graph} {a b : String} :
    g.Step a b ↔ ∃ e ∈ g.edges, e.1 = a ∧ e.2.1 = b := by
  simp [Graph.Step, Graph.stepB, Graph.pairMem, List.any_eq_true, Bool.and_eq_true,
    decide_eq_true_eq]

theorem not_hasCycle_of_findCycleEdge_none (g : Graph) (h : findCycleEdge g = none) :
    ¬ g.HasCycle := by
  rintro ⟨n, hn⟩
  obtain ⟨m, hstep, hreach⟩ := Relation.TransGen.head'_iff.mp hn
  obtain ⟨e, he, h1, h2⟩ := step_iff_exists_edge.mp hstep
  have hpred := List.find?_eq_none.mp h e he
  apply hpred
  rw [h1, h2, reachesB_iff]
  exact hreach

theorem findCycleEdge_isSome_of_hasCycle (g : Graph) (h : g.HasCycle) :
    (findCycleEdge g).isSome := by
  obtain ⟨n, hn⟩ := h
  obtain ⟨m, hstep, hreach⟩ := Relation.TransGen.head'_iff.mp hn
  obtain ⟨e, he, h1, h2⟩ := step_iff_exists_edge.mp hstep
  apply List.find?_isSome.mpr
  refine ⟨e, he, ?_⟩
  rw [h1, h2, reachesB_iff]
  exact hreach

theorem remove_edge_length_eq (g : Graph) (e : String × String × String)
    (he : findCycleEdge g = some e) :
    (g.remove_edge e.1 e.2.1).edges.length = g.edges.length - 1 ∧ 0 < g.edges.length := by
  have hmem : e ∈ g.edges := List.mem_of_find?_eq_some he
  have hp : (fun x : String × String × String =>
      decide (x.1 = e.1) && decide (x.2.1 = e.2.1)) e = true := by simp
  constructor
  · simpa [Graph.remove_edge] using List.length_eraseP_of_mem hmem hp
  · exact List.length_pos.mpr (List.ne_nil_of_mem hmem)

theorem removeEdgesFuel_length (fuel : Nat) :
    ∀ g : Graph,
      (removeEdgesFuel fuel g).1.edges.length + (removeEdgesFuel fuel g).2.length =
        g.edges.length := by
  induction fuel with
  | zero => intro g; simp [removeEdgesFuel]
  | succ fuel ih =>
    intro g
    rw [removeEdgesFuel]
    cases hfc : findCycleEdge g with
    | none => simp
    | some e =>
      have heq := remove_edge_length_eq g e hfc
      have hrec := ih (g.remove_edge e.1 e.2.1)
      simp only [List.length_cons]
      omega

theorem removeEdgesFuel_acyclic (fuel : Nat) :
    ∀ g : Graph, g.edges.length ≤ fuel →
      findCycleEdge (removeEdgesFuel fuel g).1 = none := by
  induction fuel with
  | zero =>
    intro g hle
    have hnil : g.edges = [] := List.length_eq_zero.mp (Nat.le_zero.mp hle)
    simp [removeEdgesFuel, findCycleEdge, hnil]
  | succ fuel ih =>
    intro g hle
    rw [removeEdgesFuel]
    cases hfc : findCycleEdge g with
    | none => simpa using hfc
    | some e =>
      have heq := remove_edge_length_eq g e hfc
      exact ih (g.remove_edge e.1 e.2.1) (by omega)

theorem removeEdgesLoop_findCycleEdge_none (g : Graph) :
    findCycleEdge (removeEdgesLoop g).1 = none :=
  removeEdgesFuel_acyclic g.edges.length g le_rfl

/-! ## Existence of a topological order on an acyclic graph -/



theorem reach_card_lt_of_step (g : Graph) (hnc : ¬ g.HasCycle) {u v : String}
    (huv : g.Step u v) :
    (reachList g v).toFinset.card < (reachList g u).toFinset.card := by
  apply Finset.card_lt_card
  rw [Finset.ssubset_def]
  constructor
  · intro x hx
    rw [List.mem_toFinset] at hx ⊢
    exact mem_reachList_of_reach g u x
      (Relation.ReflTransGen.head huv (reach_of_mem_reachList g v x hx))
  · intro hsub
    have hu : u ∈ (reachList g v).toFinset := by
      apply hsub
      rw [List.mem_toFinset]
      exact mem_reachList_self g u
    rw [List.mem_toFinset] at hu
    exact hnc ⟨u, Relation.TransGen.head' huv (reach_of_mem_reachList g v u hu)⟩

theorem reach_card_le (g : Graph) (a : String) :
    (reachList g a).toFinset.card ≤ g.edges.length + 1 := by
  have hsub : reachList g a ⊆ a :: targetsOf g := by
    apply reachIter_subset_universe g (a :: targetsOf g)
      (fun x hx => List.mem_cons_of_mem _ hx)
    intro x hx
    simp only [List.mem_singleton] at hx
    exact hx ▸ List.mem_cons_self _ _
  calc (reachList g a).toFinset.card
      ≤ (a :: targetsOf g).toFinset.card := by
        apply Finset.card_le_card
        intro x hx
        rw [List.mem_toFinset] at hx ⊢
        exact hsub hx
    _ ≤ (a :: targetsOf g).length := (a :: targetsOf g).toFinset_card_le
    _ = g.edges.length + 1 := by simp [targetsOf]

theorem exists_topo_rank (g : Graph) (hnc : ¬ g.HasCycle) :
    ∃ f : String → Nat, ∀ e ∈ g.edges, f e.1 < f e.2.1 := by
  refine ⟨fun n => g.edges.length + 1 - (reachList g n).toFinset.card, ?_⟩
  intro e he
  have hstep : g.Step e.1 e.2.1 := step_iff_exists_edge.mpr ⟨e, he, rfl, rfl⟩
  have h1 := reach_card_lt_of_step g hnc hstep
  have h2 := reach_card_le g e.1
  show g.edges.length + 1 - (reachList g e.1).toFinset.card <
    g.edges.length + 1 - (reachList g e.2.1).toFinset.card
  omega

/-- C4: the cycle-elimination loop of `remove_edges` terminates with every
iteration removing exactly one existing edge (the final edge count plus the
number of removed edges equals the initial edge count), the resulting graph
has no directed cycle, and a topological order exists on it (a rank function
strictly increasing along every edge). -/
theorem claim_C4_remove_edges_terminates_acyclic (g : Graph)
    (es : List (String × String × String)) :
    (remove_edges g es).1.edges.length + (remove_edges g es).2.length = g.edges.length ∧
    ¬ (remove_edges g es).1.HasCycle ∧
    ∃ f : String → Nat, ∀ e ∈ (remove_edges g es).1.edges, f e.1 < f e.2.1 := by
  have hacyc : ¬ (remove_edges g es).1.HasCycle :=
    not_hasCycle_of_findCycleEdge_none _ (removeEdgesLoop_findCycleEdge_none g)
  exact ⟨removeEdgesFuel_length g.edges.length g, hacyc, exists_topo_rank _ hacyc⟩

/-- C10: the `edges` parameter of `remove_edges` is never read: for any two
argument lists the function removes the same edges in the same order,
returns the same removed list and produces the same final graph. -/
theorem claim_C10_remove_edges_ignores_edges_param (g : Graph)
    (e1 e2 : List (String × String × String)) :
    remove_edges g e1 = remove_edges g e2 := rfl

/-- C7: on an outer graph containing a directed cycle,
`get_reverse_processing_order` returns the fallback order: program nodes in
reverse insertion order, then jcl_step nodes in reverse insertion order
(jcl_job nodes are in neither list). -/
theorem claim_C7_cyclic_fallback_order (g : Graph) (h : g.HasCycle) :
    get_reverse_processing_order g =
      (programIds g).reverse ++ (jclStepIds g).reverse := by
  unfold get_reverse_processing_order
  rw [if_pos]
  rw [Option.isSome_iff_exists]
  obtain ⟨e, he⟩ := Option.isSome_iff_exists.mp (findCycleEdge_isSome_of_hasCycle g h)
  exact ⟨e, he⟩

theorem claim_C7_witness :
    cycOuter.HasCycle ∧ get_reverse_processing_order cycOuter = ["B", "A"] := by
  have hAB : cycOuter.Step "A" "B" := by
    show cycOuter.stepB "A" "B" = true
    decide
  have hBA : cycOuter.Step "B" "A" := by
    show cycOuter.stepB "B" "A" = true
    decide
  have hcyc : cycOuter.HasCycle :=
    ⟨"A", Relation.TransGen.head hAB (Relation.TransGen.single hBA)⟩
  refine ⟨hcyc, ?_⟩
  rw [claim_C7_cyclic_fallback_order cycOuter hcyc]
  decide

/-! ## Dead-block eliminator properties -/



theorem mem_nodeIds_remove_node {g : Graph} {x m : String} :
    m ∈ (g.remove_node x).nodeIds ↔ m ∈ g.nodeIds ∧ m ≠ x := by
  simp only [Graph.nodeIds, Graph.remove_node, List.mem_map, List.mem_filter,
    decide_eq_true_eq]
  constructor
  · rintro ⟨p, ⟨hp, hne⟩, rfl⟩
    exact ⟨⟨p, hp, rfl⟩, hne⟩
  · rintro ⟨⟨p, hp, rfl⟩, hne⟩
    exact ⟨p, ⟨hp, hne⟩, rfl⟩

theorem in_degree_remove_node_le (g : Graph) (x n : String) :
    (g.remove_node x).in_degree n ≤ g.in_degree n := by
  simp only [Graph.in_degree, Graph.remove_node]
  exact List.Sublist.length_le (List.Sublist.filter _ (List.filter_sublist _))

theorem deadNodeStep_not_mem {entry : String} {g : Graph} {m n : String}
    (h : n ∉ g.nodeIds) : n ∉ (deadNodeStep entry g m).nodeIds := by
  unfold deadNodeStep
  split
  · rw [mem_nodeIds_remove_node]
    exact fun hc => h hc.1
  · exact h

theorem deadNodeStep_in_degree_le (entry : String) (g : Graph) (m n : String) :
    (deadNodeStep entry g m).in_degree n ≤ g.in_degree n := by
  unfold deadNodeStep
  split
  · exact in_degree_remove_node_le g m n
  · exact le_rfl

theorem deadNodeStep_entry_mem {entry : String} {g : Graph} (m : String)
    (h : entry ∈ g.nodeIds) : entry ∈ (deadNodeStep entry g m).nodeIds := by
  unfold deadNodeStep
  split
  · next hcond =>
    rw [mem_nodeIds_remove_node]
    exact ⟨h, fun he => hcond.1 he.symm⟩
  · exact h

theorem deadFold_not_mem (entry : String) (l : List String) :
    ∀ g : Graph, ∀ n, n ∉ g.nodeIds → n ∉ (l.foldl (deadNodeStep entry) g).nodeIds := by
  induction l with
  | nil => exact fun _ _ h => h
  | cons m t ih =>
    intro g n h
    simp only [List.foldl_cons]
    exact ih _ n (deadNodeStep_not_mem h)

theorem deadFold_entry_mem (entry : String) (l : List String) :
    ∀ g : Graph, entry ∈ g.nodeIds → entry ∈ (l.foldl (deadNodeStep entry) g).nodeIds := by
  induction l with
  | nil => exact fun _ h => h
  | cons m t ih =>
    intro g h
    simp only [List.foldl_cons]
    exact ih _ (deadNodeStep_entry_mem m h)

theorem deadFold_removes (entry : String) (l : List String) :
    ∀ g : Graph, ∀ n ∈ l, n ≠ entry → g.in_degree n = 0 →
      n ∉ (l.foldl (deadNodeStep entry) g).nodeIds := by
  induction l with
  | nil => intro _ n hn; cases hn
  | cons m t ih =>
    intro g n hn hne hdeg
    simp only [List.foldl_cons]
    rcases List.mem_cons.mp hn with rfl | hnt
    · have hstep : deadNodeStep entry g n = g.remove_node n := by
        unfold deadNodeStep
        rw [if_pos ⟨hne, hdeg⟩]
      rw [hstep]
      apply deadFold_not_mem
      rw [mem_nodeIds_remove_node]
      exact fun hc => hc.2 rfl
    · have hdeg' : (deadNodeStep entry g m).in_degree n = 0 :=
        Nat.le_zero.mp (hdeg ▸ deadNodeStep_in_degree_le entry g m n)
      exact ih _ n hnt hne hdeg'

/-- C3 (amended): the single dead-block pass removes every non-root node
whose in-degree is zero when the pass begins, and never removes the root. -/
theorem claim_C3_amended_dead_pass (g : Graph) (entry n : String)
    (hentry : entry ∈ g.nodeIds) (hmem : n ∈ g.nodeIds) (hne : n ≠ entry)
    (hdeg : g.in_degree n = 0) :
    n ∉ (deadRemoval entry g).nodeIds ∧ entry ∈ (deadRemoval entry g).nodeIds := by
  unfold deadRemoval
  rw [if_pos hentry]
  exact ⟨deadFold_removes entry g.nodeIds g n hmem hne hdeg,
    deadFold_entry_mem entry g.nodeIds g hentry⟩

/-- C8: when the root is absent the dead-block pass is a strict no-op. -/
theorem claim_C8_dead_pass_noop_without_root (g : Graph) (entry : String)
    (h : entry ∉ g.nodeIds) : deadRemoval entry g = g := by
  unfold deadRemoval
  rw [if_neg h]

theorem claim_C3_counterexample :
    (buildInner "P" c3paras).toOption.isSome = true ∧
    "P:ENTRY" ∈ c3graph.nodeIds ∧
    "P:B" ∈ c3dead.nodeIds ∧ "P:B" ≠ "P:ENTRY" ∧ c3dead.in_degree "P:B" = 0 := by
  decide

theorem claim_C3_witness :
    ("P2:ENTRY" ∈ c3witnessGraph.nodeIds ∧ "P2:X" ∈ c3witnessGraph.nodeIds ∧
      "P2:X" ≠ "P2:ENTRY" ∧ c3witnessGraph.in_degree "P2:X" = 0) ∧
    "P2:X" ∉ (deadRemoval "P2:ENTRY" c3witnessGraph).nodeIds ∧
    "P2:ENTRY" ∈ (deadRemoval "P2:ENTRY" c3witnessGraph).nodeIds := by
  refine ⟨by decide, ?_⟩
  exact claim_C3_amended_dead_pass c3witnessGraph "P2:ENTRY" "P2:X"
    (by decide) (by decide) (by decide) (by decide)

theorem claim_C8_witness :
    "Q:ENTRY" ∉ c8graph.nodeIds ∧ deadRemoval "Q:ENTRY" c8graph = c8graph :=
  ⟨by decide, claim_C8_dead_pass_noop_without_root c8graph "Q:ENTRY" (by decide)⟩

/-! ## Edge-addition idempotence -/



theorem length_le_one_of_nodup_constant {α : Type} {l : List α} {c : α}
    (hnd : l.Nodup) (hc : ∀ x ∈ l, x = c) : l.length ≤ 1 := by
  match l with
  | [] => simp
  | [x] => simp
  | x :: y :: t =>
    exfalso
    have hx : x = c := hc x (List.mem_cons_self _ _)
    have hy : y = c := hc y (List.mem_cons_of_mem _ (List.mem_cons_self _ _))
    rw [List.nodup_cons] at hnd
    exact hnd.1 (hx ▸ hy ▸ List.mem_cons_self _ _)

theorem pairCount_le_one_of_nodup {g : Graph} {u v : String} (h : g.EdgeKeysNodup) :
    pairCount g u v ≤ 1 := by
  unfold pairCount
  have hsub : List.Sublist
      ((g.edges.filter (fun e => decide (e.1 = u) && decide (e.2.1 = v))).map
        (fun e => (e.1, e.2.1)))
      (g.edges.map (fun e => (e.1, e.2.1))) :=
    List.Sublist.map _ (List.filter_sublist _)
  have hnd := h.sublist hsub
  have hconst : ∀ x ∈ (g.edges.filter
      (fun e => decide (e.1 = u) && decide (e.2.1 = v))).map (fun e => (e.1, e.2.1)),
      x = (u, v) := by
    intro x hx
    simp only [List.mem_map, List.mem_filter, Bool.and_eq_true, decide_eq_true_eq] at hx
    obtain ⟨e, ⟨_, h1, h2⟩, rfl⟩ := hx
    simp [h1, h2]
  have := length_le_one_of_nodup_constant hnd hconst
  simpa using this

theorem pairMem_add_edge_self (g : Graph) (u v t : String) :
    (g.add_edge u v t).pairMem u v = true := by
  unfold Graph.add_edge Graph.pairMem
  simp only
  split
  · next hany =>
    simp only [List.any_eq_true, Bool.and_eq_true, decide_eq_true_eq] at hany ⊢
    obtain ⟨e, he, h1, h2⟩ := hany
    refine ⟨(u, v, t), ?_, rfl, rfl⟩
    apply List.mem_map.mpr
    exact ⟨e, he, by simp [h1, h2]⟩
  · simp [List.any_eq_true]

theorem add_edge_length_of_pairMem (g : Graph) (u v t : String)
    (h : g.pairMem u v = true) :
    (g.add_edge u v t).edges.length = g.edges.length := by
  have h' : (g.edges.any fun e => decide (e.1 = u) && decide (e.2.1 = v)) = true := h
  simp [Graph.add_edge, h']

theorem pairCount_add_edge (g : Graph) (u v t : String) (h : pairCount g u v ≤ 1) :
    pairCount (g.add_edge u v t) u v = 1 := by
  unfold Graph.add_edge pairCount
  dsimp only
  by_cases hmem : g.pairMem u v = true
  · have h' : (g.edges.any fun e => decide (e.1 = u) && decide (e.2.1 = v)) = true := hmem
    rw [if_pos h']
    have hmap : (g.edges.map (fun e => if e.1 = u ∧ e.2.1 = v then (u, v, t) else e)).filter
        (fun e => decide (e.1 = u) && decide (e.2.1 = v)) =
        (g.edges.filter (fun e => decide (e.1 = u) && decide (e.2.1 = v))).map
        (fun e => if e.1 = u ∧ e.2.1 = v then (u, v, t) else e) := by
      rw [List.filter_map]
      congr 1
      apply List.filter_congr
      intro e _
      by_cases hc : e.1 = u ∧ e.2.1 = v
      · simp [hc, Function.comp]
      · simp only [Function.comp, if_neg hc]
    rw [hmap, List.length_map]
    have hge : 1 ≤ pairCount g u v := by
      unfold Graph.pairMem at hmem
      simp only [List.any_eq_true] at hmem
      obtain ⟨e, he, hp⟩ := hmem
      unfold pairCount
      have : e ∈ g.edges.filter (fun e => decide (e.1 = u) && decide (e.2.1 = v)) :=
        List.mem_filter.mpr ⟨he, hp⟩
      exact List.length_pos.mpr (List.ne_nil_of_mem this)
    unfold pairCount at h hge
    omega
  · have h' : ¬ (g.edges.any fun e => decide (e.1 = u) && decide (e.2.1 = v)) = true := hmem
    rw [if_neg h']
    simp only [List.filter_append]
    have h0 : g.edges.filter (fun e => decide (e.1 = u) && decide (e.2.1 = v)) = [] := by
      apply List.filter_eq_nil_iff.mpr
      intro e he hp
      exact h' (List.any_eq_true.mpr ⟨e, he, hp⟩)
    rw [h0]
    simp

/-- C9: adding the same `(src, dst, type)` edge twice is idempotent on every
well-formed graph: the edge count after the second addition equals the count
after the first, and exactly one edge is stored for the ordered pair. -/
theorem claim_C9_add_edge_idempotent (g : Graph) (u v t : String)
    (h : g.EdgeKeysNodup) :
    ((g.add_edge u v t).add_edge u v t).edges.length = (g.add_edge u v t).edges.length ∧
    pairCount ((g.add_edge u v t).add_edge u v t) u v = 1 := by
  constructor
  · exact add_edge_length_of_pairMem _ u v t (pairMem_add_edge_self g u v t)
  · apply pairCount_add_edge
    have h1 := pairCount_add_edge g u v t (pairCount_le_one_of_nodup h)
    omega

theorem claim_C9_witness :
    (Graph.empty.add_edge "a" "b" "CALL").EdgeKeysNodup ∧
    (((Graph.empty.add_edge "a" "b" "CALL").add_edge "a" "b" "CALL").add_edge
        "a" "b" "CALL").edges.length =
      ((Graph.empty.add_edge "a" "b" "CALL").add_edge "a" "b" "CALL").edges.length ∧
    pairCount (((Graph.empty.add_edge "a" "b" "CALL").add_edge "a" "b" "CALL").add_edge
        "a" "b" "CALL") "a" "b" = 1 := by
  have hnd : (Graph.empty.add_edge "a" "b" "CALL").EdgeKeysNodup := by
    unfold Graph.EdgeKeysNodup
    decide
  have := claim_C9_add_edge_idempotent (Graph.empty.add_edge "a" "b" "CALL") "a" "b" "CALL" hnd
  exact ⟨hnd, this.1, this.2⟩

/-! ## Toolkit: folds over the `Except` monad and graph-update persistence -/



theorem except_bind_ok {ε α β : Type} {x : Except ε α} {f : α → Except ε β} {r : β}
    (h : (x >>= f) = Except.ok r) : ∃ v, x = Except.ok v ∧ f v = Except.ok r := by
  cases x with
  | error e => simp [Bind.bind, Except.bind] at h
  | ok v => exact ⟨v, rfl, by simpa [Bind.bind, Except.bind] using h⟩

theorem foldlM_ok_decompose {ε α β : Type} (f : β → α → Except ε β) (l1 : List α) (x : α)
    (l2 : List α) (b : β) (r : β)
    (h : List.foldlM f b (l1 ++ x :: l2) = Except.ok r) :
    ∃ b1 b2, List.foldlM f b l1 = Except.ok b1 ∧ f b1 x = Except.ok b2 ∧
      List.foldlM f b2 l2 = Except.ok r := by
  rw [List.foldlM_append] at h
  obtain ⟨b1, hb1, h⟩ := except_bind_ok h
  rw [List.foldlM_cons] at h
  obtain ⟨b2, hb2, h⟩ := except_bind_ok h
  exact ⟨b1, b2, hb1, hb2, h⟩

theorem foldlM_preserve {ε α β : Type} (P : β → Prop) (f : β → α → Except ε β)
    (hstep : ∀ b x b', f b x = Except.ok b' → P b → P b') :
    ∀ (l : List α) (b b' : β), List.foldlM f b l = Except.ok b' → P b → P b' := by
  intro l
  induction l with
  | nil =>
    intro b b' h hP
    simp only [List.foldlM_nil, pure, Except.pure, Except.ok.injEq] at h
    exact h ▸ hP
  | cons x t ih =>
    intro b b' h hP
    rw [List.foldlM_cons] at h
    obtain ⟨b1, hb1, h⟩ := except_bind_ok h
    exact ih b1 b' h (hstep b x b1 hb1 hP)

theorem foldlM_preserve_mem {ε α β : Type} (P : β → Prop) (f : β → α → Except ε β)
    (l : List α) (hstep : ∀ b x b', x ∈ l → f b x = Except.ok b' → P b → P b') :
    ∀ b b', List.foldlM f b l = Except.ok b' → P b → P b' := by
  induction l with
  | nil =>
    intro b b' h hP
    simp only [List.foldlM_nil, pure, Except.pure, Except.ok.injEq] at h
    exact h ▸ hP
  | cons x t ih =>
    intro b b' h hP
    rw [List.foldlM_cons] at h
    obtain ⟨b1, hb1, h⟩ := except_bind_ok h
    exact ih (fun b x b' hx => hstep b x b' (List.mem_cons_of_mem _ hx)) b1 b' h
      (hstep b x b1 (List.mem_cons_self _ _) hb1 hP)

theorem foldl_preserve {α β : Type} (P : β → Prop) (f : β → α → β)
    (hstep : ∀ b x, P b → P (f b x)) :
    ∀ (l : List α) (b : β), P b → P (l.foldl f b) := by
  intro l
  induction l with
  | nil => exact fun b h => h
  | cons x t ih =>
    intro b h
    simp only [List.foldl_cons]
    exact ih _ (hstep b x h)

theorem foldlM_ok_of_all {ε α β : Type} (Inv : β → Prop) (f : β → α → Except ε β)
    (l : List α) (hstep : ∀ b x, x ∈ l → Inv b → ∃ b', f b x = Except.ok b' ∧ Inv b') :
    ∀ b, Inv b → ∃ b', List.foldlM f b l = Except.ok b' ∧ Inv b' := by
  induction l with
  | nil => exact fun b h => ⟨b, rfl, h⟩
  | cons x t ih =>
    intro b hInv
    obtain ⟨b1, hb1, hInv1⟩ := hstep b x (List.mem_cons_self _ _) hInv
    obtain ⟨b', hfold, hInv'⟩ := ih
      (fun b x hx hI => hstep b x (List.mem_cons_of_mem _ hx) hI) b1 hInv1
    refine ⟨b', ?_, hInv'⟩
    rw [List.foldlM_cons, hb1]
    simpa [Bind.bind, Except.bind] using hfold

/-! Persistence of node membership, attribute lookups and edges under the
graph constructors. -/



theorem mem_nodeIds_iff_lookup {g : Graph} {n : String} :
    n ∈ g.nodeIds ↔ (g.lookupNode n).isSome := by
  unfold Graph.nodeIds Graph.lookupNode
  constructor
  · intro hmem
    obtain ⟨p, hp, hpn⟩ := List.mem_map.mp hmem
    have hsome : (g.nodes.find? (fun p => decide (p.1 = n))).isSome :=
      List.find?_isSome.mpr ⟨p, hp, by simp [hpn]⟩
    cases hfind : g.nodes.find? (fun p => decide (p.1 = n)) with
    | none => rw [hfind] at hsome; simp at hsome
    | some q => simp [hfind]
  · intro h
    cases hfind : g.nodes.find? (fun p => decide (p.1 = n)) with
    | none => rw [hfind] at h; simp at h
    | some q =>
      have hq := List.find?_some hfind
      have hqmem := List.mem_of_find?_eq_some hfind
      simp only [decide_eq_true_eq] at hq
      exact List.mem_map.mpr ⟨q, hqmem, hq⟩

theorem find?_map_node_update (l : List (String × NodeAttrs)) (n m : String)
    (f : NodeAttrs → NodeAttrs) (h : m ≠ n) :
    List.find? (fun p => decide (p.1 = m))
        (l.map (fun p => if p.1 = n then (n, f p.2) else p)) =
      List.find? (fun p => decide (p.1 = m)) l := by
  induction l with
  | nil => rfl
  | cons p t ih =>
    by_cases hp : p.1 = n
    · have h1 : (decide ((n : String) = m)) = false := by
        simp [Ne.symm h]
      have h2 : (decide (p.1 = m)) = false := by
        simp [hp, Ne.symm h]
      simp only [List.map_cons, if_pos hp]
      rw [List.find?_cons_of_neg _ (by simp [h1]), List.find?_cons_of_neg _ (by simp [h2])]
      exact ih
    · simp only [List.map_cons, if_neg hp]
      by_cases hpm : p.1 = m
      · rw [List.find?_cons_of_pos _ (by simp [hpm]), List.find?_cons_of_pos _ (by simp [hpm])]
      · rw [List.find?_cons_of_neg _ (by simp [hpm]), List.find?_cons_of_neg _ (by simp [hpm])]
        exact ih

theorem lookupNode_add_node_other {g : Graph} {n m : String} (f : NodeAttrs → NodeAttrs)
    (h : m ≠ n) : (g.add_node n f).lookupNode m = g.lookupNode m := by
  unfold Graph.add_node Graph.lookupNode
  split
  · simp only
    rw [find?_map_node_update g.nodes n m f h]
  · simp only
    rw [List.find?_append]
    cases hfind : g.nodes.find? (fun p => decide (p.1 = m)) with
    | some p => simp
    | none =>
      simp only [Option.none_or]
      have hnm : (decide ((n : String) = m)) = false := by simp [Ne.symm h]
      have hone : List.find? (fun p => decide (p.1 = m)) [(n, f emptyAttrs)] = none := by
        simp [List.find?, hnm]
      simp [hone]

theorem any_nodes_iff_mem {g : Graph} {n : String} :
    (g.nodes.any fun p => decide (p.1 = n)) = true ↔ n ∈ g.nodeIds := by
  rw [List.any_eq_true]
  unfold Graph.nodeIds
  constructor
  · rintro ⟨p, hp, hpred⟩
    simp only [decide_eq_true_eq] at hpred
    exact List.mem_map.mpr ⟨p, hp, hpred⟩
  · intro h
    obtain ⟨p, hp, hpn⟩ := List.mem_map.mp h
    exact ⟨p, hp, by simp [hpn]⟩

theorem find?_map_node_update_self (l : List (String × NodeAttrs)) (n : String)
    (f : NodeAttrs → NodeAttrs) :
    List.find? (fun p => decide (p.1 = n))
        (l.map (fun p => if p.1 = n then (n, f p.2) else p)) =
      (List.find? (fun p => decide (p.1 = n)) l).map (fun p => (n, f p.2)) := by
  induction l with
  | nil => rfl
  | cons p t ih =>
    by_cases hp : p.1 = n
    · simp only [List.map_cons, if_pos hp]
      rw [List.find?_cons_of_pos _ (by simp), List.find?_cons_of_pos _ (by simp [hp])]
      rfl
    · simp only [List.map_cons, if_neg hp]
      rw [List.find?_cons_of_neg _ (by simp [hp]), List.find?_cons_of_neg _ (by simp [hp])]
      exact ih

theorem lookupNode_add_node_self_present {g : Graph} {n : String} {a : NodeAttrs}
    (f : NodeAttrs → NodeAttrs) (h : g.lookupNode n = some a) :
    (g.add_node n f).lookupNode n = some (f a) := by
  have hmem : n ∈ g.nodeIds := mem_nodeIds_iff_lookup.mpr (by simp [h])
  unfold Graph.add_node Graph.lookupNode
  rw [if_pos (any_nodes_iff_mem.mpr hmem)]
  simp only
  rw [find?_map_node_update_self]
  unfold Graph.lookupNode at h
  cases hfind : g.nodes.find? (fun p => decide (p.1 = n)) with
  | none => rw [hfind] at h; simp at h
  | some p =>
    rw [hfind] at h
    simp only [Option.map_some', Option.some.injEq] at h ⊢
    rw [h]

theorem lookupNode_add_node_self_absent {g : Graph} {n : String}
    (f : NodeAttrs → NodeAttrs) (h : n ∉ g.nodeIds) :
    (g.add_node n f).lookupNode n = some (f emptyAttrs) := by
  unfold Graph.add_node Graph.lookupNode
  rw [if_neg (fun hc => h (any_nodes_iff_mem.mp hc))]
  simp only
  rw [List.find?_append]
  have hnone : g.nodes.find? (fun p => decide (p.1 = n)) = none := by
    apply List.find?_eq_none.mpr
    intro p hp
    simp only [decide_eq_true_eq]
    intro hc
    exact h (List.mem_map.mpr ⟨p, hp, hc⟩)
  rw [hnone]
  simp [List.find?]

theorem nodeIds_add_node_of_mem {g : Graph} {n : String} (f : NodeAttrs → NodeAttrs)
    (h : n ∈ g.nodeIds) : (g.add_node n f).nodeIds = g.nodeIds := by
  unfold Graph.add_node Graph.nodeIds
  rw [if_pos (any_nodes_iff_mem.mpr h)]
  simp only [List.map_map]
  apply List.map_congr_left
  intro p _
  by_cases hp : p.1 = n
  · simp [Function.comp, hp]
  · simp [Function.comp, hp]

theorem nodeIds_add_node_of_not_mem {g : Graph} {n : String} (f : NodeAttrs → NodeAttrs)
    (h : n ∉ g.nodeIds) : (g.add_node n f).nodeIds = g.nodeIds ++ [n] := by
  unfold Graph.add_node Graph.nodeIds
  rw [if_neg (fun hc => h (any_nodes_iff_mem.mp hc))]
  simp

theorem mem_nodeIds_add_node {g : Graph} {n m : String} (f : NodeAttrs → NodeAttrs) :
    m ∈ (g.add_node n f).nodeIds ↔ m ∈ g.nodeIds ∨ m = n := by
  by_cases h : n ∈ g.nodeIds
  · rw [nodeIds_add_node_of_mem f h]
    constructor
    · exact Or.inl
    · rintro (hm | rfl)
      · exact hm
      · exact h
  · rw [nodeIds_add_node_of_not_mem f h]
    simp

theorem ensureNode_ids_mem {l : List (String × NodeAttrs)} {x m : String} :
    m ∈ (ensureNode l x).map (·.1) ↔ m ∈ l.map (·.1) ∨ m = x := by
  unfold ensureNode
  split
  · next hany =>
    constructor
    · exact Or.inl
    · rintro (hm | rfl)
      · exact hm
      · simp only [List.any_eq_true, decide_eq_true_eq] at hany
        obtain ⟨p, hp, hpx⟩ := hany
        exact List.mem_map.mpr ⟨p, hp, hpx⟩
  · simp

theorem mem_nodeIds_add_edge {g : Graph} {u v t m : String} :
    m ∈ (g.add_edge u v t).nodeIds ↔ m ∈ g.nodeIds ∨ m = u ∨ m = v := by
  unfold Graph.add_edge Graph.nodeIds
  simp only
  rw [ensureNode_ids_mem, ensureNode_ids_mem]
  tauto

theorem find?_ensureNode_of_some {l : List (String × NodeAttrs)} {x m : String}
    {p : String × NodeAttrs}
    (h : List.find? (fun q => decide (q.1 = m)) l = some p) :
    List.find? (fun q => decide (q.1 = m)) (ensureNode l x) = some p := by
  unfold ensureNode
  split
  · exact h
  · rw [List.find?_append, h]
    rfl

theorem lookupNode_add_edge_of_some {g : Graph} {m u v t : String} {a : NodeAttrs}
    (h : g.lookupNode m = some a) : (g.add_edge u v t).lookupNode m = some a := by
  unfold Graph.lookupNode at h ⊢
  cases hfind : g.nodes.find? (fun q => decide (q.1 = m)) with
  | none => rw [hfind] at h; simp at h
  | some p =>
    rw [hfind] at h
    unfold Graph.add_edge
    simp only
    rw [find?_ensureNode_of_some (find?_ensureNode_of_some hfind)]
    exact h

theorem add_node_edges (g : Graph) (n : String) (f : NodeAttrs → NodeAttrs) :
    (g.add_node n f).edges = g.edges := by
  unfold Graph.add_node
  split <;> rfl

theorem pairMem_add_edge_of_pairMem {g : Graph} {a b u v t : String}
    (h : g.pairMem a b = true) : (g.add_edge u v t).pairMem a b = true := by
  unfold Graph.add_edge Graph.pairMem at *
  simp only
  split
  · rw [List.any_map]
    obtain ⟨e, he, hp⟩ := List.any_eq_true.mp h
    refine List.any_eq_true.mpr ⟨e, he, ?_⟩
    simp only [Bool.and_eq_true, decide_eq_true_eq] at hp
    by_cases hc : e.1 = u ∧ e.2.1 = v
    · simp only [Function.comp, if_pos hc, Bool.and_eq_true, decide_eq_true_eq]
      exact ⟨hc.1 ▸ hp.1, hc.2 ▸ hp.2⟩
    · simp only [Function.comp, if_neg hc, Bool.and_eq_true, decide_eq_true_eq]
      exact hp
  · rw [List.any_append, h]
    rfl

theorem find?_map_edge_update_self (l : List (String × String × String)) (u v t : String)
    (hany : (l.any fun e => decide (e.1 = u) && decide (e.2.1 = v)) = true) :
    List.find? (fun e => decide (e.1 = u) && decide (e.2.1 = v))
        (l.map (fun e => if e.1 = u ∧ e.2.1 = v then (u, v, t) else e)) =
      some (u, v, t) := by
  induction l with
  | nil => simp at hany
  | cons e l' ih =>
    by_cases hc : e.1 = u ∧ e.2.1 = v
    · simp only [List.map_cons, if_pos hc]
      rw [List.find?_cons_of_pos _ (by simp)]
    · simp only [List.map_cons, if_neg hc]
      have hpe : (decide (e.1 = u) && decide (e.2.1 = v)) = false := by
        rcases not_and_or.mp hc with h1 | h1 <;> simp [h1]
      rw [List.find?_cons_of_neg _ (by simp [hpe])]
      apply ih
      rw [List.any_cons, hpe] at hany
      simpa using hany

theorem edgeType_add_edge_self (g : Graph) (u v t : String) :
    (g.add_edge u v t).edgeType u v = some t := by
  unfold Graph.add_edge Graph.edgeType
  simp only
  split
  · next hany =>
    rw [find?_map_edge_update_self g.edges u v t hany]
    rfl
  · next hany =>
    rw [List.find?_append]
    have hnone : g.edges.find? (fun e => decide (e.1 = u) && decide (e.2.1 = v)) = none := by
      apply List.find?_eq_none.mpr
      intro e he hp
      exact hany (List.any_eq_true.mpr ⟨e, he, hp⟩)
    rw [hnone]
    simp [List.find?]

theorem find?_map_edge_update_other (l : List (String × String × String)) (u v t a b : String)
    (h : ¬(u = a ∧ v = b)) :
    List.find? (fun e => decide (e.1 = a) && decide (e.2.1 = b))
        (l.map (fun e => if e.1 = u ∧ e.2.1 = v then (u, v, t) else e)) =
      List.find? (fun e => decide (e.1 = a) && decide (e.2.1 = b)) l := by
  induction l with
  | nil => rfl
  | cons e l' ih =>
    by_cases hc : e.1 = u ∧ e.2.1 = v
    · have hpe : (decide (e.1 = a) && decide (e.2.1 = b)) = false := by
        rcases not_and_or.mp h with h1 | h1
        · simp [hc.1, h1]
        · simp [hc.2, h1]
      have hpnew : (decide ((u : String) = a) && decide ((v : String) = b)) = false := by
        rcases not_and_or.mp h with h1 | h1 <;> simp [h1]
      simp only [List.map_cons, if_pos hc]
      rw [List.find?_cons_of_neg _ (by simp [hpnew]), List.find?_cons_of_neg _ (by simp [hpe])]
      exact ih
    · simp only [List.map_cons, if_neg hc]
      by_cases hpe : (decide (e.1 = a) && decide (e.2.1 = b)) = true
      · rw [@List.find?_cons_of_pos _ (fun e => decide (e.1 = a) && decide (e.2.1 = b)) e _ hpe,
          @List.find?_cons_of_pos _ (fun e => decide (e.1 = a) && decide (e.2.1 = b)) e _ hpe]
      · rw [@List.find?_cons_of_neg _ (fun e => decide (e.1 = a) && decide (e.2.1 = b)) e _ hpe,
          @List.find?_cons_of_neg _ (fun e => decide (e.1 = a) && decide (e.2.1 = b)) e _ hpe]
        exact ih

theorem edgeType_add_edge_other {g : Graph} {u v t a b : String} (h : ¬(u = a ∧ v = b)) :
    (g.add_edge u v t).edgeType a b = g.edgeType a b := by
  unfold Graph.add_edge Graph.edgeType
  simp only
  split
  · rw [find?_map_edge_update_other g.edges u v t a b h]
  · rw [List.find?_append]
    have hone : List.find? (fun e => decide (e.1 = a) && decide (e.2.1 = b)) [(u, v, t)]
        = none := by
      have : (decide ((u : String) = a) && decide ((v : String) = b)) = false := by
        rcases not_and_or.mp h with h1 | h1 <;> simp [h1]
      simp [List.find?, this]
    rw [hone]
    cases g.edges.find? (fun e => decide (e.1 = a) && decide (e.2.1 = b)) <;> rfl

/-! ## Claim C1: the inner edge phase adds PERFORM/GOTO edges without any
target-existence check -/



theorem except_pure_eq {ε α : Type} (x : α) : (pure x : Except ε α) = Except.ok x := rfl

theorem edgePresence_add_edge {g : Graph} {s d u v t : String}
    (h : g.pairMem s d = true ∧ d ∈ g.nodeIds) :
    (g.add_edge u v t).pairMem s d = true ∧ d ∈ (g.add_edge u v t).nodeIds :=
  ⟨pairMem_add_edge_of_pairMem h.1, mem_nodeIds_add_edge.mpr (Or.inl h.2)⟩

theorem performStep_preserve (pid p : String) {s d : String} (g : Graph) (t : PerformTarget)
    (g' : Graph) (hok : performStep pid p g t = Except.ok g')
    (h : g.pairMem s d = true ∧ d ∈ g.nodeIds) :
    g'.pairMem s d = true ∧ d ∈ g'.nodeIds := by
  unfold performStep at hok
  cases htn : t.target_name with
  | none => rw [htn] at hok; simp [getK, Bind.bind, Except.bind] at hok
  | some tn =>
    rw [htn] at hok
    simp only [getK, Bind.bind, Except.bind] at hok
    split at hok
    · simp only [except_pure_eq, Except.ok.injEq] at hok
      exact hok ▸ h
    · simp only [except_pure_eq, Except.ok.injEq] at hok
      exact hok ▸ edgePresence_add_edge h

theorem edgesStep_preserve (pid : String) {s d : String} (g : Graph)
    (pv : String × CobolRecord) (g' : Graph) (hok : edgesStep pid g pv = Except.ok g')
    (h : g.pairMem s d = true ∧ d ∈ g.nodeIds) :
    g'.pairMem s d = true ∧ d ∈ g'.nodeIds := by
  unfold edgesStep at hok
  cases hpd : pv.2.procedure_division with
  | none => rw [hpd] at hok; simp [getK, Bind.bind, Except.bind] at hok
  | some pd =>
    rw [hpd] at hok
    simp only [getK, Bind.bind, Except.bind] at hok
    cases hpara : pd.paragraph with
    | none => rw [hpara] at hok; simp [getK, Bind.bind, Except.bind] at hok
    | some para =>
      rw [hpara] at hok
      simp only [getK, Bind.bind, Except.bind] at hok
      obtain ⟨gP, hP, hpure⟩ := except_bind_ok hok
      have h1 : gP.pairMem s d = true ∧ d ∈ gP.nodeIds :=
        foldlM_preserve _ (performStep pid pv.1)
          (fun b x b' hb hgb => performStep_preserve pid pv.1 b x b' hb hgb)
          (para.perform_targets.getD []) g gP hP h
      simp only [except_pure_eq, Except.ok.injEq] at hpure
      refine hpure ▸ ?_
      exact foldl_preserve (fun b => b.pairMem s d = true ∧ d ∈ b.nodeIds)
        (gotoStep pid pv.1) (fun b x hb => edgePresence_add_edge hb)
        (para.goto_targets.getD []) gP h1

theorem foldl_preserve_mem {α β : Type} (P : β → Prop) (f : β → α → β) (l : List α)
    (hstep : ∀ b x, x ∈ l → P b → P (f b x)) : ∀ b, P b → P (l.foldl f b) := by
  induction l with
  | nil => exact fun b h => h
  | cons x t ih =>
    intro b h
    simp only [List.foldl_cons]
    exact ih (fun b y hy => hstep b y (List.mem_cons_of_mem _ hy)) _
      (hstep b x (List.mem_cons_self _ _) h)

theorem edgeType_add_edge_same_type {g : Graph} {a b u v t : String}
    (h : g.edgeType a b = some t) : (g.add_edge u v t).edgeType a b = some t := by
  by_cases hpair : u = a ∧ v = b
  · rw [hpair.1, hpair.2, edgeType_add_edge_self]
  · rw [edgeType_add_edge_other hpair]
    exact h

theorem performStep_preserve_edgeType {pid p s d ty : String} (g : Graph)
    (t : PerformTarget) (g' : Graph) (hok : performStep pid p g t = Except.ok g')
    (hcond : ty = "PERFORM" ∨ pid ++ ":" ++ p ≠ s)
    (h : g.edgeType s d = some ty) : g'.edgeType s d = some ty := by
  unfold performStep at hok
  cases htn : t.target_name with
  | none => rw [htn] at hok; simp [getK, Bind.bind, Except.bind] at hok
  | some tn =>
    rw [htn] at hok
    simp only [getK, Bind.bind, Except.bind] at hok
    split at hok
    · simp only [except_pure_eq, Except.ok.injEq] at hok
      exact hok ▸ h
    · simp only [except_pure_eq, Except.ok.injEq] at hok
      rw [← hok]
      rcases hcond with rfl | hsrc
      · exact edgeType_add_edge_same_type h
      · rw [edgeType_add_edge_other (fun hc => hsrc hc.1)]
        exact h

theorem gotoStep_preserve_edgeType_of_ne {pid p s d ty t' : String} {g : Graph}
    (hne : ¬(pid ++ ":" ++ p = s ∧ pid ++ ":" ++ t' = d))
    (h : g.edgeType s d = some ty) : (gotoStep pid p g t').edgeType s d = some ty := by
  unfold gotoStep
  rw [edgeType_add_edge_other hne]
  exact h

theorem edgesStep_preserve_edgeType_of_src_ne (pid : String) {s d ty : String} (g : Graph)
    (pv : String × CobolRecord) (g' : Graph) (hok : edgesStep pid g pv = Except.ok g')
    (hs : pid ++ ":" ++ pv.1 ≠ s) (h : g.edgeType s d = some ty) :
    g'.edgeType s d = some ty := by
  unfold edgesStep at hok
  cases hpd : pv.2.procedure_division with
  | none => rw [hpd] at hok; simp [getK, Bind.bind, Except.bind] at hok
  | some pd =>
    rw [hpd] at hok
    simp only [getK, Bind.bind, Except.bind] at hok
    cases hpara : pd.paragraph with
    | none => rw [hpara] at hok; simp [getK, Bind.bind, Except.bind] at hok
    | some para =>
      rw [hpara] at hok
      simp only [getK, Bind.bind, Except.bind] at hok
      obtain ⟨gP, hP, hpure⟩ := except_bind_ok hok
      have h1 : gP.edgeType s d = some ty :=
        foldlM_preserve (fun b => b.edgeType s d = some ty) (performStep pid pv.1)
          (fun b x b' hbx hgb =>
            performStep_preserve_edgeType b x b' hbx (Or.inr hs) hgb)
          (para.perform_targets.getD []) g gP hP h
      simp only [except_pure_eq, Except.ok.injEq] at hpure
      refine hpure ▸ ?_
      exact foldl_preserve (fun b => b.edgeType s d = some ty) (gotoStep pid pv.1)
        (fun b x hb => gotoStep_preserve_edgeType_of_ne (fun hc => hs hc.1) hb)
        (para.goto_targets.getD []) gP h1

/-- C1 (amended): for every paragraph, every non-INLINE perform target and
every goto target yields an edge from `pid:p` to `pid:target` in the builder
output, together with the target node, with no check that the target names
an existing paragraph — a missing target node is created implicitly by the
edge.  The stored edge type is `PERFORM` for a perform target (unless the
same paragraph also names the same target id in `gotoTargets`, whose later
write overwrites the single stored edge of the pair) and `GOTO` for a goto
target (goto edges are written last within a paragraph).  The paragraph ids
are assumed distinct, as the aggregator guarantees. -/
theorem claim_C1_amended_edges_added_unconditionally (pid : String)
    (paras : List (String × CobolRecord)) (g : Graph)
    (hok : buildInner pid paras = Except.ok g)
    (p : String) (v : CobolRecord) (hmem : (p, v) ∈ paras)
    (pd : ProcedureDivision) (para : ParagraphFields)
    (hpd : v.procedure_division = some pd) (hpara : pd.paragraph = some para)
    (hnodup : (paras.map (fun q => pid ++ ":" ++ q.1)).Nodup) :
    (∀ tgt ∈ para.perform_targets.getD [], ∀ tn, tgt.target_name = some tn →
      tn ≠ "INLINE" →
      g.pairMem (pid ++ ":" ++ p) (pid ++ ":" ++ tn) = true ∧
      (pid ++ ":" ++ tn) ∈ g.nodeIds ∧
      ((∀ t' ∈ para.goto_targets.getD [], pid ++ ":" ++ t' ≠ pid ++ ":" ++ tn) →
        g.edgeType (pid ++ ":" ++ p) (pid ++ ":" ++ tn) = some "PERFORM")) ∧
    (∀ t ∈ para.goto_targets.getD [],
      g.pairMem (pid ++ ":" ++ p) (pid ++ ":" ++ t) = true ∧
      (pid ++ ":" ++ t) ∈ g.nodeIds ∧
      g.edgeType (pid ++ ":" ++ p) (pid ++ ":" ++ t) = some "GOTO") := by
  unfold buildInner at hok
  obtain ⟨g0, _, hedges⟩ := except_bind_ok hok
  unfold innerAddEdges at hedges
  obtain ⟨l1, l2, hsplit⟩ := List.append_of_mem hmem
  rw [hsplit] at hedges
  obtain ⟨g1, g2, _, hstep, hrest⟩ := foldlM_ok_decompose _ l1 (p, v) l2 g0 g hedges
  unfold edgesStep at hstep
  rw [hpd] at hstep
  simp only [getK, Bind.bind, Except.bind] at hstep
  rw [hpara] at hstep
  simp only [getK, Bind.bind, Except.bind] at hstep
  obtain ⟨gP, hP, hpure⟩ := except_bind_ok hstep
  simp only [except_pure_eq, Except.ok.injEq] at hpure
  rw [hsplit, List.map_append, List.map_cons] at hnodup
  have hnotin : (pid ++ ":" ++ p) ∉ l2.map (fun q => pid ++ ":" ++ q.1) :=
    (List.nodup_cons.mp hnodup.of_append_right).1
  have hsrcne : ∀ q ∈ l2, pid ++ ":" ++ q.1 ≠ pid ++ ":" ++ p := by
    intro q hq hc
    have hqm : (pid ++ ":" ++ q.1) ∈ l2.map (fun q => pid ++ ":" ++ q.1) :=
      List.mem_map.mpr ⟨q, hq, rfl⟩
    rw [hc] at hqm
    exact hnotin hqm
  constructor
  · intro tgt htgt tn htn hni
    obtain ⟨m1, m2, hm⟩ := List.append_of_mem htgt
    rw [hm] at hP
    obtain ⟨ga, gb, _, htstep, htrest⟩ := foldlM_ok_decompose _ m1 tgt m2 g1 gP hP
    unfold performStep at htstep
    rw [htn] at htstep
    simp only [getK, Bind.bind, Except.bind] at htstep
    rw [if_neg hni] at htstep
    simp only [except_pure_eq, Except.ok.injEq] at htstep
    have hb : gb.pairMem (pid ++ ":" ++ p) (pid ++ ":" ++ tn) = true ∧
        (pid ++ ":" ++ tn) ∈ gb.nodeIds := by
      rw [← htstep]
      exact ⟨pairMem_add_edge_self ga _ _ _, mem_nodeIds_add_edge.mpr (Or.inr (Or.inr rfl))⟩
    have hgP : gP.pairMem (pid ++ ":" ++ p) (pid ++ ":" ++ tn) = true ∧
        (pid ++ ":" ++ tn) ∈ gP.nodeIds :=
      foldlM_preserve _ (performStep pid p)
        (fun b x b' hbx hgb => performStep_preserve pid p b x b' hbx hgb)
        m2 gb gP htrest hb
    have hg2 : g2.pairMem (pid ++ ":" ++ p) (pid ++ ":" ++ tn) = true ∧
        (pid ++ ":" ++ tn) ∈ g2.nodeIds := by
      refine hpure ▸ ?_
      exact foldl_preserve
        (fun b => b.pairMem (pid ++ ":" ++ p) (pid ++ ":" ++ tn) = true ∧
          (pid ++ ":" ++ tn) ∈ b.nodeIds)
        (gotoStep pid p) (fun b x hbx => edgePresence_add_edge hbx)
        (para.goto_targets.getD []) gP hgP
    have hfin : g.pairMem (pid ++ ":" ++ p) (pid ++ ":" ++ tn) = true ∧
        (pid ++ ":" ++ tn) ∈ g.nodeIds :=
      foldlM_preserve _ (edgesStep pid)
        (fun b x b' hbx hgb => edgesStep_preserve pid b x b' hbx hgb) l2 g2 g hrest hg2
    refine ⟨hfin.1, hfin.2, ?_⟩
    intro hng
    have hbT : gb.edgeType (pid ++ ":" ++ p) (pid ++ ":" ++ tn) = some "PERFORM" := by
      rw [← htstep]
      exact edgeType_add_edge_self ga _ _ _
    have hgPT : gP.edgeType (pid ++ ":" ++ p) (pid ++ ":" ++ tn) = some "PERFORM" :=
      foldlM_preserve
        (fun b => b.edgeType (pid ++ ":" ++ p) (pid ++ ":" ++ tn) = some "PERFORM")
        (performStep pid p)
        (fun b x b' hbx hgb =>
          performStep_preserve_edgeType b x b' hbx (Or.inl rfl) hgb)
        m2 gb gP htrest hbT
    have hg2T : g2.edgeType (pid ++ ":" ++ p) (pid ++ ":" ++ tn) = some "PERFORM" := by
      refine hpure ▸ ?_
      exact foldl_preserve_mem
        (fun b => b.edgeType (pid ++ ":" ++ p) (pid ++ ":" ++ tn) = some "PERFORM")
        (gotoStep pid p) (para.goto_targets.getD [])
        (fun b t' ht' hgb =>
          gotoStep_preserve_edgeType_of_ne (fun hc => hng t' ht' hc.2) hgb)
        gP hgPT
    exact foldlM_preserve_mem
      (fun b => b.edgeType (pid ++ ":" ++ p) (pid ++ ":" ++ tn) = some "PERFORM")
      (edgesStep pid) l2
      (fun b x b' hx hbx hgb =>
        edgesStep_preserve_edgeType_of_src_ne pid b x b' hbx (hsrcne x hx) hgb)
      g2 g hrest hg2T
  · intro t ht
    obtain ⟨n1, n2, hn⟩ := List.append_of_mem ht
    rw [hn, List.foldl_append, List.foldl_cons] at hpure
    have hest : ((gotoStep pid p (n1.foldl (gotoStep pid p) gP) t).pairMem
          (pid ++ ":" ++ p) (pid ++ ":" ++ t) = true ∧
        (pid ++ ":" ++ t) ∈ (gotoStep pid p (n1.foldl (gotoStep pid p) gP) t).nodeIds) ∧
        (gotoStep pid p (n1.foldl (gotoStep pid p) gP) t).edgeType
          (pid ++ ":" ++ p) (pid ++ ":" ++ t) = some "GOTO" := by
      unfold gotoStep
      exact ⟨⟨pairMem_add_edge_self _ _ _ _,
        mem_nodeIds_add_edge.mpr (Or.inr (Or.inr rfl))⟩,
        edgeType_add_edge_self _ _ _ _⟩
    have hg2G : (g2.pairMem (pid ++ ":" ++ p) (pid ++ ":" ++ t) = true ∧
        (pid ++ ":" ++ t) ∈ g2.nodeIds) ∧
        g2.edgeType (pid ++ ":" ++ p) (pid ++ ":" ++ t) = some "GOTO" := by
      refine hpure ▸ ?_
      exact foldl_preserve
        (fun b => (b.pairMem (pid ++ ":" ++ p) (pid ++ ":" ++ t) = true ∧
            (pid ++ ":" ++ t) ∈ b.nodeIds) ∧
          b.edgeType (pid ++ ":" ++ p) (pid ++ ":" ++ t) = some "GOTO")
        (gotoStep pid p)
        (fun b x hbx => ⟨edgePresence_add_edge hbx.1,
          edgeType_add_edge_same_type hbx.2⟩)
        n2 _ hest
    have hfinG := foldlM_preserve_mem
      (fun b => (b.pairMem (pid ++ ":" ++ p) (pid ++ ":" ++ t) = true ∧
          (pid ++ ":" ++ t) ∈ b.nodeIds) ∧
        b.edgeType (pid ++ ":" ++ p) (pid ++ ":" ++ t) = some "GOTO")
      (edgesStep pid) l2
      (fun b x b' hx hbx hgb => ⟨edgesStep_preserve pid b x b' hbx hgb.1,
        edgesStep_preserve_edgeType_of_src_ne pid b x b' hbx (hsrcne x hx) hgb.2⟩)
      g2 g hrest hg2G
    exact ⟨hfinG.1.1, hfinG.1.2, hfinG.2⟩

theorem claim_C1_counterexample :
    (buildInner "P1" c1paras).toOption.isSome = true ∧
    "MISSING" ∉ c1paras.map (·.1) ∧ "GBLK" ∉ c1paras.map (·.1) ∧
    c1graph.pairMem "P1:ENTRY" "P1:MISSING" = true ∧
    "P1:MISSING" ∈ c1graph.nodeIds ∧
    c1graph.edgeType "P1:ENTRY" "P1:MISSING" = some "PERFORM" ∧
    c1graph.pairMem "P1:ENTRY" "P1:GBLK" = true ∧
    "P1:GBLK" ∈ c1graph.nodeIds ∧
    c1graph.edgeType "P1:ENTRY" "P1:GBLK" = some "GOTO" := by
  decide

theorem claim_C1_witness :
    (buildInner "P1" c1paras = Except.ok c1graph ∧ ("ENTRY", c1rec) ∈ c1paras ∧
      c1rec.procedure_division = some ⟨some c1para, none⟩ ∧
      (c1paras.map (fun q => "P1" ++ ":" ++ q.1)).Nodup ∧
      (⟨some "MISSING"⟩ : PerformTarget) ∈ c1para.perform_targets.getD [] ∧
      "MISSING" ≠ "INLINE" ∧ "GBLK" ∈ c1para.goto_targets.getD []) ∧
    (c1graph.pairMem "P1:ENTRY" "P1:MISSING" = true ∧
      "P1:MISSING" ∈ c1graph.nodeIds ∧
      c1graph.edgeType "P1:ENTRY" "P1:MISSING" = some "PERFORM") ∧
    (c1graph.pairMem "P1:ENTRY" "P1:GBLK" = true ∧
      "P1:GBLK" ∈ c1graph.nodeIds ∧
      c1graph.edgeType "P1:ENTRY" "P1:GBLK" = some "GOTO") := by
  have hmain := claim_C1_amended_edges_added_unconditionally "P1" c1paras c1graph rfl
    "ENTRY" c1rec (by decide) ⟨some c1para, none⟩ c1para rfl rfl (by decide)
  have h1 := hmain.1 ⟨some "MISSING"⟩ (by decide) "MISSING" rfl (by decide)
  have h2 := hmain.2 "GBLK" (by decide)
  exact ⟨⟨rfl, by decide, rfl, by decide, by decide, by decide, by decide⟩,
    ⟨h1.1, h1.2.1, h1.2.2 (by decide)⟩, h2⟩

/-! ## Claim C5: callee placeholder nodes carry no `isPlaceholder` flag -/



theorem lookupNode_add_node_cases {g : Graph} {n m : String} {f : NodeAttrs → NodeAttrs}
    {b : NodeAttrs} (h : (g.add_node n f).lookupNode m = some b) :
    (m ≠ n ∧ g.lookupNode m = some b) ∨
    (m = n ∧ ((g.lookupNode n = none ∧ b = f emptyAttrs) ∨
      ∃ a, g.lookupNode n = some a ∧ b = f a)) := by
  by_cases hm : m = n
  · subst hm
    cases hl : g.lookupNode m with
    | none =>
      right
      refine ⟨rfl, Or.inl ⟨rfl, ?_⟩⟩
      have habs : m ∉ g.nodeIds := by
        rw [mem_nodeIds_iff_lookup, hl]
        simp
      rw [lookupNode_add_node_self_absent f habs] at h
      exact (Option.some.injEq _ _ ▸ h).symm
    | some a =>
      right
      refine ⟨rfl, Or.inr ⟨a, rfl, ?_⟩⟩
      rw [lookupNode_add_node_self_present f hl] at h
      exact (Option.some.injEq _ _ ▸ h).symm
  · left
    refine ⟨hm, ?_⟩
    rw [lookupNode_add_node_other f hm] at h
    exact h

theorem find?_ensureNode_cases {l : List (String × NodeAttrs)} {x m : String}
    {p : String × NodeAttrs}
    (h : List.find? (fun q => decide (q.1 = m)) (ensureNode l x) = some p) :
    List.find? (fun q => decide (q.1 = m)) l = some p ∨ p = (x, emptyAttrs) := by
  unfold ensureNode at h
  split at h
  · exact Or.inl h
  · rw [List.find?_append] at h
    cases hfind : List.find? (fun q => decide (q.1 = m)) l with
    | some q =>
      rw [hfind] at h
      have h' : some q = some p := h
      simp only [Option.some.injEq] at h'
      exact Or.inl (congrArg some h')
    | none =>
      rw [hfind] at h
      have h' : List.find? (fun q => decide (q.1 = m)) [(x, emptyAttrs)] = some p := h
      right
      by_cases hx : x = m
      · subst hx
        simp [List.find?] at h'
        exact h'.symm
      · have hd : (decide (x = m)) = false := by simp [hx]
        simp [List.find?, hd] at h'

theorem lookupNode_add_edge_cases {g : Graph} {u v t m : String} {b : NodeAttrs}
    (h : (g.add_edge u v t).lookupNode m = some b) :
    g.lookupNode m = some b ∨ b = emptyAttrs := by
  unfold Graph.add_edge Graph.lookupNode at h
  simp only at h
  cases hfind : List.find? (fun q => decide (q.1 = m)) (ensureNode (ensureNode g.nodes u) v)
    with
  | none => rw [hfind] at h; simp at h
  | some p =>
    rw [hfind] at h
    simp only [Option.map_some', Option.some.injEq] at h
    rcases find?_ensureNode_cases hfind with h2 | h2
    · rcases find?_ensureNode_cases h2 with h3 | h3
      · left
        unfold Graph.lookupNode
        rw [h3]
        simp [h]
      · right
        rw [← h, h3]
    · right
      rw [← h, h2]

theorem edgeType_add_node (g : Graph) (n : String) (f : NodeAttrs → NodeAttrs)
    (a b : String) : (g.add_node n f).edgeType a b = g.edgeType a b := by
  unfold Graph.edgeType
  rw [add_node_edges]

theorem invNoPh_empty : InvNoPh Graph.empty := by
  intro n a h
  unfold Graph.lookupNode Graph.empty at h
  simp [List.find?] at h

theorem invNoPh_add_node {g : Graph} {n : String} {f : NodeAttrs → NodeAttrs}
    (hf : ∀ a, (f a).isPlaceholder = a.isPlaceholder) (h : InvNoPh g) :
    InvNoPh (g.add_node n f) := by
  intro m b hb
  rcases lookupNode_add_node_cases hb with ⟨_, hl⟩ | ⟨_, hcase⟩
  · exact h m b hl
  · rcases hcase with ⟨_, rfl⟩ | ⟨a, ha, rfl⟩
    · rw [hf]
      rfl
    · rw [hf]
      exact h n a ha

theorem invNoPh_add_edge {g : Graph} {u v t : String} (h : InvNoPh g) :
    InvNoPh (g.add_edge u v t) := by
  intro m b hb
  rcases lookupNode_add_edge_cases hb with hl | rfl
  · exact h m b hl
  · rfl

theorem invNoPh_calleeStep {g : Graph} {pid c : String} (h : InvNoPh g) :
    InvNoPh (calleeStep pid g c) :=
  invNoPh_add_edge (invNoPh_add_node (fun a => rfl) h)

theorem processProgram_ok_outer {o : Graph} {pid : String} {d : ProgDetails}
    {r : Graph × Graph} (h : processProgram o pid d = Except.ok r) :
    r.1 = (dedupKeepFirst (collectCalled d)).foldl (calleeStep pid)
      (o.add_node pid (fun a => { a with type := some "program",
                                         has_inner_cfg := some (!d.paragraphs.isEmpty) })) := by
  unfold processProgram at h
  obtain ⟨inner, _, hp⟩ := except_bind_ok h
  simp only [except_pure_eq, Except.ok.injEq] at hp
  rw [← hp]

theorem cobolStep_ok_outer {acc acc' : Graph × List (String × Graph)}
    {pd : String × ProgDetails} (h : cobolStep acc pd = Except.ok acc') :
    acc'.1 = (dedupKeepFirst (collectCalled pd.2)).foldl (calleeStep pd.1)
      (acc.1.add_node pd.1
        (fun a => { a with type := some "program",
                           has_inner_cfg := some (!pd.2.paragraphs.isEmpty) })) := by
  unfold cobolStep at h
  obtain ⟨r, hr, hp⟩ := except_bind_ok h
  simp only [except_pure_eq, Except.ok.injEq] at hp
  rw [← hp]
  exact processProgram_ok_outer hr

theorem invNoPh_cobolStep {acc acc' : Graph × List (String × Graph)}
    {pd : String × ProgDetails} (h : cobolStep acc pd = Except.ok acc')
    (hinv : InvNoPh acc.1) : InvNoPh acc'.1 := by
  rw [cobolStep_ok_outer h]
  apply foldl_preserve InvNoPh (calleeStep pd.1) (fun b x hb => invNoPh_calleeStep hb)
  exact invNoPh_add_node (fun a => rfl) hinv

theorem calleeState_calleeStep {g : Graph} {pid callee pid' c : String}
    (h : calleeState pid callee g) : calleeState pid callee (calleeStep pid' g c) := by
  obtain ⟨⟨a, hl, hty, hph⟩, hedge⟩ := h
  unfold calleeStep
  constructor
  · by_cases hc : callee = c
    · subst hc
      have h1 : (g.add_node callee
            (fun a => { a with type := some "program" })).lookupNode callee =
          some { a with type := some "program" } :=
        lookupNode_add_node_self_present _ hl
      exact ⟨{ a with type := some "program" },
        lookupNode_add_edge_of_some h1, rfl, hph⟩
    · refine ⟨a, ?_, hty, hph⟩
      apply lookupNode_add_edge_of_some
      rw [lookupNode_add_node_other _ hc]
      exact hl
  · by_cases hpair : pid' = pid ∧ c = callee
    · rw [hpair.1, hpair.2, edgeType_add_edge_self]
    · rw [edgeType_add_edge_other hpair, edgeType_add_node]
      exact hedge

theorem calleeState_add_node_other {g : Graph} {pid callee n : String}
    {f : NodeAttrs → NodeAttrs} (hn : n ≠ callee) (h : calleeState pid callee g) :
    calleeState pid callee (g.add_node n f) := by
  obtain ⟨⟨a, hl, hty, hph⟩, hedge⟩ := h
  refine ⟨⟨a, ?_, hty, hph⟩, ?_⟩
  · rw [lookupNode_add_node_other f (fun hc => hn hc.symm)]
    exact hl
  · rw [edgeType_add_node]
    exact hedge

theorem calleeState_cobolStep {acc acc' : Graph × List (String × Graph)}
    {pd : String × ProgDetails} {pid callee : String} (hne : pd.1 ≠ callee)
    (h : cobolStep acc pd = Except.ok acc') (hst : calleeState pid callee acc.1) :
    calleeState pid callee acc'.1 := by
  rw [cobolStep_ok_outer h]
  apply foldl_preserve (calleeState pid callee) (calleeStep pd.1)
    (fun b x hb => calleeState_calleeStep hb)
  exact calleeState_add_node_other hne hst

theorem mem_dedupKeepFirst_of_mem {l : List String} {x : String} (h : x ∈ l) :
    x ∈ dedupKeepFirst l := by
  unfold dedupKeepFirst
  suffices hgen : ∀ (l : List String) (acc : List String), x ∈ acc ∨ x ∈ l →
      x ∈ l.foldl (fun acc x => if acc.any (fun y => decide (y = x)) then acc
        else acc ++ [x]) acc by
    exact hgen l [] (Or.inr h)
  intro l
  induction l with
  | nil =>
    intro acc hx
    rcases hx with hx | hx
    · exact hx
    · cases hx
  | cons y t ih =>
    intro acc hx
    simp only [List.foldl_cons]
    apply ih
    rcases hx with hx | hx
    · left
      split
      · exact hx
      · exact List.mem_append_left _ hx
    · rcases List.mem_cons.mp hx with rfl | hx
      · split
        · next hany =>
          left
          simp only [List.any_eq_true, decide_eq_true_eq] at hany
          obtain ⟨z, hz, rfl⟩ := hany
          exact hz
        · exact Or.inl (List.mem_append_right _ (List.mem_singleton_self x))
      · exact Or.inr hx

/-- C5 (amended): for a callee named in a program's call set but never
itself aggregated, the COBOL phase creates a node with `type = "program"`
and no `isPlaceholder` attribute at all (the flag is only ever written for
step-execution targets), and adds the CALL edge. -/
theorem claim_C5_amended_callee_without_placeholder
    (progs : List (String × ProgDetails)) (outer : Graph)
    (innerMap : List (String × Graph))
    (hok : processCobolPrograms progs = Except.ok (outer, innerMap))
    (pid : String) (d : ProgDetails) (hmem : (pid, d) ∈ progs)
    (callee : String) (hcallee : callee ∈ collectCalled d)
    (hnot : callee ∉ progs.map (·.1)) :
    (∃ a, outer.lookupNode callee = some a ∧ a.type = some "program" ∧
      a.isPlaceholder = none) ∧
    outer.edgeType pid callee = some "CALL" := by
  unfold processCobolPrograms at hok
  obtain ⟨l1, l2, hsplit⟩ := List.append_of_mem hmem
  rw [hsplit] at hok
  obtain ⟨acc1, acc2, hfold1, hstep, hfold2⟩ :=
    foldlM_ok_decompose cobolStep l1 (pid, d) l2 (Graph.empty, []) (outer, innerMap) hok
  have hinv1 : InvNoPh acc1.1 :=
    foldlM_preserve (fun acc => InvNoPh acc.1) cobolStep
      (fun b x b' hbx hb => invNoPh_cobolStep hbx hb) l1 (Graph.empty, []) acc1 hfold1
      invNoPh_empty
  have hout2 := cobolStep_ok_outer hstep
  have hinv0 : InvNoPh (acc1.1.add_node pid
      (fun a => { a with type := some "program",
                         has_inner_cfg := some (!d.paragraphs.isEmpty) })) :=
    invNoPh_add_node (fun a => rfl) hinv1
  have hcallee' : callee ∈ dedupKeepFirst (collectCalled d) :=
    mem_dedupKeepFirst_of_mem hcallee
  obtain ⟨k1, k2, hk⟩ := List.append_of_mem hcallee'
  rw [hk, List.foldl_append] at hout2
  simp only [List.foldl_cons] at hout2
  have hinvA : InvNoPh (k1.foldl (calleeStep pid) (acc1.1.add_node pid
      (fun a => { a with type := some "program",
                         has_inner_cfg := some (!d.paragraphs.isEmpty) }))) :=
    foldl_preserve InvNoPh (calleeStep pid) (fun b x hb => invNoPh_calleeStep hb) k1 _ hinv0
  have hstate : calleeState pid callee (calleeStep pid
      (k1.foldl (calleeStep pid) (acc1.1.add_node pid
        (fun a => { a with type := some "program",
                           has_inner_cfg := some (!d.paragraphs.isEmpty) }))) callee) := by
    unfold calleeStep
    constructor
    · cases hl : (k1.foldl (calleeStep pid) (acc1.1.add_node pid
          (fun a => { a with type := some "program",
                             has_inner_cfg := some (!d.paragraphs.isEmpty) }))).lookupNode
          callee with
      | none =>
        have habs : callee ∉ (k1.foldl (calleeStep pid) (acc1.1.add_node pid
            (fun a => { a with type := some "program",
                               has_inner_cfg := some (!d.paragraphs.isEmpty) }))).nodeIds := by
          rw [mem_nodeIds_iff_lookup, hl]
          simp
        exact ⟨{ emptyAttrs with type := some "program" },
          lookupNode_add_edge_of_some (lookupNode_add_node_self_absent _ habs), rfl, rfl⟩
      | some a =>
        exact ⟨{ a with type := some "program" },
          lookupNode_add_edge_of_some (lookupNode_add_node_self_present _ hl), rfl,
          hinvA callee a hl⟩
    · rw [edgeType_add_edge_self]
  have hstate2 : calleeState pid callee acc2.1 := by
    rw [hout2]
    exact foldl_preserve (calleeState pid callee) (calleeStep pid)
      (fun b x hb => calleeState_calleeStep hb) k2 _ hstate
  have hne : ∀ q ∈ l2, q.1 ≠ callee := by
    intro q hq hc
    apply hnot
    rw [hsplit, List.map_append]
    apply List.mem_append_right
    simp only [List.map_cons]
    exact List.mem_cons_of_mem _ (List.mem_map.mpr ⟨q, hq, hc⟩)
  have hfinal : calleeState pid callee (outer, innerMap).1 :=
    foldlM_preserve_mem (fun acc => calleeState pid callee acc.1) cobolStep l2
      (fun b x b' hx hbx hb => calleeState_cobolStep (hne x hx) hbx hb)
      acc2 (outer, innerMap) hfold2 hstate2
  exact hfinal

theorem claim_C5_counterexample :
    (build_graphs [] c5recs).toOption.isSome = true ∧
    ((aggregatePrograms c5recs).toOption.getD []).map (·.1) = ["A"] ∧
    (c5outer.lookupNode "B").isSome = true ∧
    ((c5outer.lookupNode "B").getD emptyAttrs).isPlaceholder = none ∧
    c5outer.edgeType "A" "B" = some "CALL" := by
  decide

theorem claim_C5_witness :
    (processCobolPrograms c5progs = Except.ok (c5pair.1, c5pair.2) ∧
      ("A", c5details) ∈ c5progs ∧ "B" ∈ collectCalled c5details ∧
      "B" ∉ c5progs.map (·.1)) ∧
    (∃ a, c5pair.1.lookupNode "B" = some a ∧ a.type = some "program" ∧
      a.isPlaceholder = none) ∧
    c5pair.1.edgeType "A" "B" = some "CALL" := by
  refine ⟨⟨rfl, by decide, by decide, by decide⟩, ?_⟩
  exact claim_C5_amended_callee_without_placeholder c5progs c5pair.1 c5pair.2 rfl
    "A" c5details (by decide) "B" (by decide) (by decide)

/-! ## Claim C6: the `isPlaceholder` flag for step-executed programs -/



theorem execState_mem {sid pidX : String} {g : Graph} (h : execState sid pidX g) :
    pidX ∈ g.nodeIds := by
  obtain ⟨⟨a, hl, _, _⟩, _⟩ := h
  rw [mem_nodeIds_iff_lookup, hl]
  rfl

theorem processJclJob_establish {g1 g2 : Graph} {j : JclJob} {jn sn pidX : String}
    {st : JclStep}
    (hjn : j.jobName = some jn) (hst : j.step = some st) (hsn : st.stepName = some sn)
    (hpid : st.programId = some pidX)
    (hok : processJclJob g1 j = Except.ok g2)
    (habs : pidX ∉ g1.nodeIds) (hne1 : pidX ≠ jn) (hne2 : pidX ≠ jn ++ ":" ++ sn) :
    execState (jn ++ ":" ++ sn) pidX g2 := by
  unfold processJclJob at hok
  rw [hjn, hst] at hok
  simp only [hsn, hpid, getK, Bind.bind, Except.bind, except_pure_eq,
    Except.ok.injEq] at hok
  subst hok
  have habsA : pidX ∉ (if jn ∈ g1.nodeIds then g1
      else g1.add_node jn
        (fun a => { a with type := some "jcl_job", jobName := some jn })).nodeIds := by
    split
    · exact habs
    · rw [mem_nodeIds_add_node]
      rintro (h | h)
      · exact habs h
      · exact hne1 h
  have habsB : pidX ∉ ((if jn ∈ g1.nodeIds then g1
      else g1.add_node jn
        (fun a => { a with type := some "jcl_job", jobName := some jn })).add_node
      (jn ++ ":" ++ sn)
      (fun a => { a with type := some "jcl_step", jobName := some jn,
                         stepName := some sn })).nodeIds := by
    rw [mem_nodeIds_add_node]
    rintro (h | h)
    · exact habsA h
    · exact hne2 h
  rw [if_neg habsB]
  constructor
  · refine ⟨{ emptyAttrs with type := some "program", isPlaceholder := some true },
      ?_, rfl, rfl⟩
    exact lookupNode_add_edge_of_some (lookupNode_add_node_self_absent _ habsB)
  · rw [edgeType_add_edge_self]

theorem execState_guarded_add_node {sid pidX n : String} {f : NodeAttrs → NodeAttrs}
{g : Graph} (h : execState sid pidX g) :
    execState sid pidX (if n ∈ g.nodeIds then g else g.add_node n f) := by
  split
  · exact h
  · next hnm =>
    have hne : pidX ≠ n := fun hc => hnm (hc ▸ execState_mem h)
    obtain ⟨⟨a, hl, hph, hty⟩, hedge⟩ := h
    refine ⟨⟨a, ?_, hph, hty⟩, ?_⟩
    · rw [lookupNode_add_node_other _ hne]
      exact hl
    · rw [edgeType_add_node]
      exact hedge

theorem execState_add_node_other {sid pidX n : String} {f : NodeAttrs → NodeAttrs}
    {g : Graph} (hne : pidX ≠ n) (h : execState sid pidX g) :
    execState sid pidX (g.add_node n f) := by
  obtain ⟨⟨a, hl, hph, hty⟩, hedge⟩ := h
  refine ⟨⟨a, ?_, hph, hty⟩, ?_⟩
  · rw [lookupNode_add_node_other _ hne]
    exact hl
  · rw [edgeType_add_node]
    exact hedge

theorem execState_add_edge_exec {sid pidX u v : String} {g : Graph}
    (h : execState sid pidX g) : execState sid pidX (g.add_edge u v "EXECUTES") := by
  obtain ⟨⟨a, hl, hph, hty⟩, hedge⟩ := h
  refine ⟨⟨a, lookupNode_add_edge_of_some hl, hph, hty⟩, ?_⟩
  by_cases hpair : u = sid ∧ v = pidX
  · rw [hpair.1, hpair.2, edgeType_add_edge_self]
  · rw [edgeType_add_edge_other hpair]
    exact hedge

theorem execState_processJclJob {g g' : Graph} {j' : JclJob} {sid pidX : String}
    (hok : processJclJob g j' = Except.ok g')
    (hpost : ∀ jn' st' sn', j'.jobName = some jn' → j'.step = some st' →
      st'.stepName = some sn' → jn' ++ ":" ++ sn' ≠ pidX)
    (h : execState sid pidX g) : execState sid pidX g' := by
  unfold processJclJob at hok
  cases hjn : j'.jobName with
  | none =>
    rw [hjn] at hok
    simp only [except_pure_eq, Except.ok.injEq] at hok
    exact hok ▸ h
  | some jn' =>
    cases hst : j'.step with
    | none =>
      rw [hjn, hst] at hok
      simp only [except_pure_eq, Except.ok.injEq] at hok
      exact hok ▸ h
    | some st' =>
      rw [hjn, hst] at hok
      cases hsn : st'.stepName with
      | none => simp [hsn, getK, Bind.bind, Except.bind] at hok
      | some sn' =>
        cases hpd : st'.programId with
        | none => simp [hsn, hpd, getK, Bind.bind, Except.bind] at hok
        | some pid' =>
          simp only [hsn, hpd, getK, Bind.bind, Except.bind, except_pure_eq,
            Except.ok.injEq] at hok
          subst hok
          have hsid' : pidX ≠ jn' ++ ":" ++ sn' :=
            fun hc => hpost jn' st' sn' hjn hst hsn hc.symm
          exact execState_add_edge_exec (execState_guarded_add_node
            (execState_add_node_other hsid' (execState_guarded_add_node h)))

/-- C6 (amended): when the executed program id is not yet a node of the
outer graph at the moment its step is processed (in particular it was never
aggregated and never named as a call target), the JCL phase creates
`ProgramNode(id, isPlaceholder = true)` and the `EXECUTES` edge, and both
survive to the end of the build; when the id already is a node, the
`EXECUTES` edge is still added but `isPlaceholder` is not written. -/
theorem claim_C6_amended_placeholder_only_for_new_ids
    (g0 g1 gf : Graph) (pre post : List JclJob) (j : JclJob)
    (jn sn pidX : String) (st : JclStep)
    (hjn : j.jobName = some jn) (hst : j.step = some st) (hsn : st.stepName = some sn)
    (hpid : st.programId = some pidX)
    (hpre : pre.foldlM processJclJob g0 = Except.ok g1)
    (hfold : (pre ++ j :: post).foldlM processJclJob g0 = Except.ok gf)
    (habs : pidX ∉ g1.nodeIds) (hne1 : pidX ≠ jn) (hne2 : pidX ≠ jn ++ ":" ++ sn)
    (hpost : ∀ j' ∈ post, ∀ jn' st' sn', j'.jobName = some jn' → j'.step = some st' →
      st'.stepName = some sn' → jn' ++ ":" ++ sn' ≠ pidX) :
    (∃ a, gf.lookupNode pidX = some a ∧ a.isPlaceholder = some true ∧
      a.type = some "program") ∧
    gf.edgeType (jn ++ ":" ++ sn) pidX = some "EXECUTES" := by
  obtain ⟨g1', g2, hfold1, hstep, hfold2⟩ :=
    foldlM_ok_decompose processJclJob pre j post g0 gf hfold
  rw [hpre] at hfold1
  simp only [Except.ok.injEq] at hfold1
  subst hfold1
  have hstate : execState (jn ++ ":" ++ sn) pidX g2 :=
    processJclJob_establish hjn hst hsn hpid hstep habs hne1 hne2
  have hfinal : execState (jn ++ ":" ++ sn) pidX gf :=
    foldlM_preserve_mem (execState (jn ++ ":" ++ sn) pidX) processJclJob post
      (fun b x b' hx hbx hb =>
        execState_processJclJob hbx (fun jn' st' sn' => hpost x hx jn' st' sn') hb)
      g2 gf hfold2 hstate
  exact hfinal

theorem claim_C6_counterexample :
    (build_graphs c6jobs c6recs).toOption.isSome = true ∧
    ((aggregatePrograms c6recs).toOption.getD []).map (·.1) = ["A"] ∧
    c6outer.edgeType "J1:S1" "PGMX" = some "EXECUTES" ∧
    (c6outer.lookupNode "PGMX").isSome = true ∧
    ((c6outer.lookupNode "PGMX").getD emptyAttrs).isPlaceholder = none := by
  decide

theorem claim_C6_witness :
    ("PGMX" ∉ (Graph.empty : Graph).nodeIds ∧
      ([c6wjob] : List JclJob).foldlM processJclJob Graph.empty =
        Except.ok c6wgraph) ∧
    (∃ a, c6wgraph.lookupNode "PGMX" = some a ∧ a.isPlaceholder = some true ∧
      a.type = some "program") ∧
    c6wgraph.edgeType "J1:S1" "PGMX" = some "EXECUTES" := by
  refine ⟨⟨by decide, rfl⟩, ?_⟩
  exact claim_C6_amended_placeholder_only_for_new_ids Graph.empty Graph.empty c6wgraph
    [] [] c6wjob "J1" "S1" "PGMX" c6step
    rfl rfl rfl rfl rfl rfl (by decide) (by decide) (by decide)
    (fun j' hj' => absurd hj' (List.not_mem_nil j'))

/-! ## Claim C2: which missing fields raise and which are tolerated -/



theorem mem_assocUpdate {β : Type} {l : List (String × β)} {k : String} {f : β → β}
    {q : String × β} (h : q ∈ assocUpdate l k f) :
    q ∈ l ∨ ∃ b, (k, b) ∈ l ∧ q = (k, f b) := by
  unfold assocUpdate at h
  obtain ⟨p, hp, hq⟩ := List.mem_map.mp h
  by_cases hk : p.1 = k
  · right
    refine ⟨p.2, ?_, ?_⟩
    · have hpk : p = (k, p.2) := by rw [← hk]
      rw [← hpk]
      exact hp
    · rw [← hq, if_pos hk]
  · left
    rw [← hq, if_neg hk]
    exact hp

theorem mem_assocSet {β : Type} {l : List (String × β)} {k : String} {v : β}
    {q : String × β} (h : q ∈ assocSet l k v) : q ∈ l ∨ q = (k, v) := by
  unfold assocSet at h
  split at h
  · obtain ⟨p, hp, hq⟩ := List.mem_map.mp h
    by_cases hk : p.1 = k
    · right
      rw [← hq, if_pos hk]
    · left
      rw [← hq, if_neg hk]
      exact hp
  · rcases List.mem_append.mp h with h1 | h1
    · exact Or.inl h1
    · exact Or.inr (List.mem_singleton.mp h1)

theorem aggregateRecord_ok {acc : List (String × ProgDetails)} {r : CobolRecord}
    (hreq : cobolReq r = true) (hinv : InvProgs acc) :
    ∃ acc', aggregateRecord acc r = Except.ok acc' ∧ InvProgs acc' := by
  unfold cobolReq at hreq
  cases hidv : r.identification_division with
  | none => rw [hidv] at hreq; cases hreq
  | some idv =>
    rw [hidv] at hreq
    simp only [Bool.and_eq_true] at hreq
    obtain ⟨hpidv, hrest⟩ := hreq
    obtain ⟨pidv, hpid⟩ := Option.isSome_iff_exists.mp hpidv
    cases hpd : r.procedure_division with
    | none => rw [hpd] at hrest; cases hrest
    | some pd =>
      rw [hpd] at hrest
      simp only [] at hrest
      cases hpara : pd.paragraph with
      | none => rw [hpara] at hrest; cases hrest
      | some para =>
        rw [hpara] at hrest
        simp only [] at hrest
        simp only [Bool.and_eq_true] at hrest
        obtain ⟨hpn, hall⟩ := hrest
        obtain ⟨pn, hpn'⟩ := Option.isSome_iff_exists.mp hpn
        have hstored : storedReq r := by
          refine ⟨pd, para, hpd, hpara, ?_⟩
          intro t ht
          rw [List.all_eq_true] at hall
          exact hall t ht
        unfold aggregateRecord
        rw [hidv]
        simp only [getK, Bind.bind, Except.bind]
        rw [hpid]
        simp only [getK, Bind.bind, Except.bind]
        split
        · rw [hpd]
          simp only [getK, Bind.bind, Except.bind, except_pure_eq]
          rw [hpara]
          simp only [getK, Bind.bind, Except.bind]
          rw [hpn']
          simp only [getK, Bind.bind, Except.bind, except_pure_eq, Except.ok.injEq]
          refine ⟨_, rfl, ?_⟩
          intro q hq pr hpr
          rcases mem_assocUpdate hq with hql | ⟨b, hbl, rfl⟩
          · exact hinv q hql pr hpr
          · rcases mem_assocSet hpr with hprl | rfl
            · exact hinv (pidv, b) hbl pr hprl
            · exact hstored
        · rw [hpd]
          simp only [getK, Bind.bind, Except.bind, except_pure_eq]
          rw [hpara]
          simp only [getK, Bind.bind, Except.bind]
          rw [hpn']
          simp only [getK, Bind.bind, Except.bind, except_pure_eq, Except.ok.injEq]
          refine ⟨_, rfl, ?_⟩
          intro q hq pr hpr
          rcases mem_assocUpdate hq with hql | ⟨b, hbl, rfl⟩
          · rcases List.mem_append.mp hql with h1 | h1
            · exact hinv q h1 pr hpr
            · have hq1 : q = (pidv, { procedure_division_using := pd.usingParams.getD [],
                                        paragraphs := [] }) := List.mem_singleton.mp h1
              rw [hq1] at hpr
              cases hpr
          · rcases mem_assocSet hpr with hprl | rfl
            · rcases List.mem_append.mp hbl with h1 | h1
              · exact hinv (pidv, b) h1 pr hprl
              · have hb : (pidv, b) = (pidv, { procedure_division_using := pd.usingParams.getD [],
                                                 paragraphs := [] }) := List.mem_singleton.mp h1
                simp only [Prod.mk.injEq] at hb
                rw [hb.2] at hprl
                cases hprl
            · exact hstored

theorem nodesStep_ok {pid : String} {g : Graph} {pv : String × CobolRecord}
    (h : storedReq pv.2) : ∃ g', nodesStep pid g pv = Except.ok g' := by
  obtain ⟨pd, para, hpd, hpara, _⟩ := h
  simp only [nodesStep, hpd, hpara, getK, Bind.bind, Except.bind, except_pure_eq]
  exact ⟨_, rfl⟩

theorem performStep_ok {pid p : String} {g : Graph} {t : PerformTarget}
    (h : t.target_name.isSome) : ∃ g', performStep pid p g t = Except.ok g' := by
  obtain ⟨tn, htn⟩ := Option.isSome_iff_exists.mp h
  simp only [performStep, htn, getK, Bind.bind, Except.bind, except_pure_eq]
  by_cases hi : tn = "INLINE"
  · rw [if_pos hi]
    exact ⟨g, rfl⟩
  · rw [if_neg hi]
    exact ⟨_, rfl⟩

theorem edgesStep_ok (pid : String) (g : Graph) (pv : String × CobolRecord)
    (h : storedReq pv.2) : ∃ g', edgesStep pid g pv = Except.ok g' := by
  obtain ⟨pd, para, hpd, hpara, hall⟩ := h
  obtain ⟨gP, hgP, _⟩ := foldlM_ok_of_all (fun _ => True) (performStep pid pv.1)
    (para.perform_targets.getD [])
    (fun b t ht _ => (performStep_ok (hall t ht)).imp (fun g' hg' => ⟨hg', trivial⟩))
    g trivial
  simp only [edgesStep, hpd, hpara, getK, Bind.bind, Except.bind, hgP, except_pure_eq]
  exact ⟨_, rfl⟩

theorem buildInner_ok (pid : String) (paras : List (String × CobolRecord))
    (h : ∀ pr ∈ paras, storedReq pr.2) : ∃ g, buildInner pid paras = Except.ok g := by
  obtain ⟨g0, h0, _⟩ := foldlM_ok_of_all (fun _ => True) (nodesStep pid) paras
    (fun b x hx _ => (nodesStep_ok (h x hx)).imp (fun g' hg' => ⟨hg', trivial⟩))
    Graph.empty trivial
  obtain ⟨g1, h1, _⟩ := foldlM_ok_of_all (fun _ => True) (edgesStep pid) paras
    (fun b x hx _ => (edgesStep_ok pid b x (h x hx)).imp (fun g' hg' => ⟨hg', trivial⟩))
    g0 trivial
  refine ⟨g1, ?_⟩
  unfold buildInner innerAddNodes innerAddEdges
  rw [h0]
  simpa [Bind.bind, Except.bind] using h1

theorem processProgram_ok (o : Graph) (pid : String) (d : ProgDetails)
    (h : ∀ pr ∈ d.paragraphs, storedReq pr.2) :
    ∃ r, processProgram o pid d = Except.ok r := by
  obtain ⟨gI, hI⟩ := buildInner_ok pid d.paragraphs h
  simp only [processProgram, hI, Bind.bind, Except.bind, except_pure_eq]
  exact ⟨_, rfl⟩

theorem cobolStep_ok (acc : Graph × List (String × Graph)) (pd : String × ProgDetails)
    (h : ∀ pr ∈ pd.2.paragraphs, storedReq pr.2) :
    ∃ acc', cobolStep acc pd = Except.ok acc' := by
  obtain ⟨r, hr⟩ := processProgram_ok acc.1 pd.1 pd.2 h
  simp only [cobolStep, hr, Bind.bind, Except.bind, except_pure_eq]
  exact ⟨_, rfl⟩

theorem processJclJob_ok (g : Graph) (j : JclJob) (h : jclReq j = true) :
    ∃ g', processJclJob g j = Except.ok g' := by
  unfold jclReq at h
  cases hjn : j.jobName with
  | none =>
    simp only [processJclJob, hjn, except_pure_eq]
    exact ⟨g, rfl⟩
  | some jn =>
    cases hst : j.step with
    | none =>
      simp only [processJclJob, hjn, hst, except_pure_eq]
      exact ⟨g, rfl⟩
    | some st =>
      rw [hjn, hst] at h
      simp only [Bool.and_eq_true] at h
      obtain ⟨sn, hsn⟩ := Option.isSome_iff_exists.mp h.1
      obtain ⟨pidX, hpid⟩ := Option.isSome_iff_exists.mp h.2
      simp only [processJclJob, hjn, hst, hsn, hpid, getK, Bind.bind, Except.bind,
        except_pure_eq]
      exact ⟨_, rfl⟩

/-- C2 (amended): `build_graphs` raises a `KeyError`/`AttributeError` when a
COBOL record lacks `identification_division`, `program_id`,
`procedure_division`, `paragraph`, `paragraph_name` or a perform target's
`target_name`, or when a JCL record that has `jobName` and `step` lacks
`stepName` or `programId`.  It does not raise for any other missing field:
JCL records missing `jobName` or `step` are skipped with a warning, the
remaining optional fields default to empty values, and whenever every record
carries its required fields a graph pair is returned. -/
theorem claim_C2_amended_no_raise_only_for_wellformed
    (jcl : List JclJob) (cobol : List CobolRecord)
    (hc : ∀ r ∈ cobol, cobolReq r = true) (hj : ∀ j ∈ jcl, jclReq j = true) :
    ∃ res, build_graphs jcl cobol = Except.ok res := by
  have hinv0 : InvProgs [] := by
    intro pd hpd
    cases hpd
  obtain ⟨progs, hprogs, hinvp⟩ := foldlM_ok_of_all InvProgs aggregateRecord cobol
    (fun acc r hr hinv => aggregateRecord_ok (hc r hr) hinv) [] hinv0
  obtain ⟨pair, hpair, _⟩ := foldlM_ok_of_all (fun _ => True) cobolStep progs
    (fun acc x hx _ =>
      (cobolStep_ok acc x (fun pr hpr => hinvp x hx pr hpr)).imp
        (fun a ha => ⟨ha, trivial⟩))
    (Graph.empty, []) trivial
  obtain ⟨outer, houter, _⟩ := foldlM_ok_of_all (fun _ => True) processJclJob jcl
    (fun g j hjm _ => (processJclJob_ok g j (hj j hjm)).imp (fun a ha => ⟨ha, trivial⟩))
    pair.1 trivial
  refine ⟨(outer, pair.2), ?_⟩
  unfold build_graphs aggregatePrograms processCobolPrograms
  rw [hprogs]
  simp only [Bind.bind, Except.bind]
  rw [hpair]
  simp only []
  rw [houter]
  rfl

theorem claim_C2_counterexample :
    build_graphs [] [c2badrec] = Except.error "KeyError: identification_division" := by
  rfl

theorem claim_C2_witness :
    ((∀ r ∈ c2recs, cobolReq r = true) ∧ (∀ j ∈ c2jobs, jclReq j = true)) ∧
    ∃ res, build_graphs c2jobs c2recs = Except.ok res :=
  ⟨⟨by decide, by decide⟩,
    claim_C2_amended_no_raise_only_for_wellformed c2jobs c2recs (by decide) (by decide)⟩
